import Mathlib

/-!
Verification of the lasercut SVG export core: a shallow embedding of the
mesh-analysis, packing and document-assembly modules, with theorems checking
the natural-language specification against the code.

Numeric modelling: coordinates are exact rationals.  The `AABB` fields use an
extended-rational type `XR` because the source explicitly initialises them
with IEEE infinities; the kerf-compensation module uses real numbers because
it normalises vectors with a square root.
-/

attribute [local semireducible] Rat.add Rat.mul Rat.sub Rat.inv

/-- Truncation toward zero, the semantics of Python's `int()` on a number. -/
def pyInt (q : ℚ) : ℤ :=
  if q < 0 then -(Int.floor (-q)) else Int.floor q

/-- Extended rationals: the values an `AABB` coordinate can take.  The source
initialises AABB fields with `float("inf")` / `float("-inf")`, so the model
needs both infinities; NaN never arises on the program's reachable values. -/
inductive XR where
  | ninf : XR
  | fin : ℚ → XR
  | pinf : XR
deriving DecidableEq, Repr

namespace XR

/-- Strict less-than, as Python `<` on these values (no NaN case needed). -/
def ltb : XR → XR → Bool
  | ninf, ninf => false
  | ninf, _ => true
  | fin _, ninf => false
  | fin a, fin b => decide (a < b)
  | fin _, pinf => true
  | pinf, _ => false

/-- Negation. -/
def neg : XR → XR
  | ninf => pinf
  | fin q => fin (-q)
  | pinf => ninf

/-- Addition.  IEEE float gives NaN for `inf + (-inf)`; that combination is
unreachable for the program's AABB values, and the model picks `pinf`. -/
def add : XR → XR → XR
  | fin a, fin b => fin (a + b)
  | ninf, pinf => pinf
  | pinf, ninf => pinf
  | ninf, _ => ninf
  | _, ninf => ninf
  | pinf, _ => pinf
  | _, pinf => pinf

/-- Subtraction, `a + (-b)`. -/
def sub (a b : XR) : XR := add a (neg b)

/-- Python `min(a, b)`: keeps `a` unless `b` compares strictly smaller. -/
def min2 (a b : XR) : XR := if ltb b a then b else a

/-- Python `max(a, b)`: keeps `a` unless `b` compares strictly larger. -/
def max2 (a b : XR) : XR := if ltb a b then b else a

/-- Underlying rational of a finite value (junk `0` on infinities; all call
sites are guarded by a finiteness check, as in the source). -/
def toQ : XR → ℚ
  | fin q => q
  | _ => 0

/-- Finiteness test: Python's `float("-inf") < mm < float("inf")`. -/
def isFin : XR → Bool
  | fin _ => true
  | _ => false

end XR

/-- 2D point / vector with exact rational coordinates. -/
abbrev Vector2 := ℚ × ℚ

/-- Edge classification: engrave if the 3D smooth flag is off, else cut. -/
inductive MeshType where
  | CUT : MeshType
  | ENGRAVE : MeshType
deriving DecidableEq, Repr

/-- A flattened (2D) edge: a directed segment plus its type. -/
structure FlattenedEdge where
  verts : Vector2 × Vector2
  edgeType : MeshType
deriving DecidableEq, Repr

/-- `self.follows(edge)`: same type and `edge`'s end equals `self`'s start. -/
def FlattenedEdge.follows (self edge : FlattenedEdge) : Bool :=
  edge.edgeType == self.edgeType && edge.verts.2 == self.verts.1

/-- An ordered sequence of flattened edges. -/
structure FlattenedMesh where
  edges : List FlattenedEdge
deriving DecidableEq, Repr

/-- `is_closed`: non-empty and the first edge's start equals the last edge's
end. -/
def FlattenedMesh.is_closed (m : FlattenedMesh) : Bool :=
  match m.edges with
  | [] => false
  | e :: rest => e.verts.1 == ((e :: rest).getLast (by simp)).verts.2

/-- Generator body of `iter_points`: yield an edge's start unless it equals
the previously yielded point, then yield its end. -/
def iterPointsGo : Option Vector2 → List FlattenedEdge → List Vector2
  | _, [] => []
  | last, e :: rest =>
    let tail := e.verts.2 :: iterPointsGo (some e.verts.2) rest
    if (some e.verts.1 == last : Bool) then tail else e.verts.1 :: tail

/-- `iter_points()` collected into a list (initial `last_point` is `None`). -/
def FlattenedMesh.iter_points (m : FlattenedMesh) : List Vector2 :=
  iterPointsGo none m.edges

/-- The per-type result of `FlattenedMesh.split` (the source uses a
`defaultdict` keyed by the two-valued `MeshType`). -/
structure SplitResult where
  cut : List (List FlattenedEdge)
  engrave : List (List FlattenedEdge)
deriving DecidableEq, Repr

/-- Chains recorded for one type. -/
def SplitResult.get : SplitResult → MeshType → List (List FlattenedEdge)
  | s, .CUT => s.cut
  | s, .ENGRAVE => s.engrave

/-- Ordering used by `sorted(meshes_for_type, key=lambda m: -len(m.edges))`:
descending length; the sort is stable, so ties keep list (creation) order.
Entries are `(chain index, chain length)` pairs. -/
def chainLe (a b : ℕ × ℕ) : Bool :=
  decide (b.2 < a.2) || (a.2 == b.2 && decide (a.1 ≤ b.1))

/-- Insertion into a list sorted by `chainLe`. -/
def insertChain (a : ℕ × ℕ) : List (ℕ × ℕ) → List (ℕ × ℕ)
  | [] => [a]
  | b :: rest => if chainLe a b then a :: b :: rest else b :: insertChain a rest

/-- Chain indices sorted by descending chain length (ties by creation order),
the iteration order of the source's `for mesh in sorted(...)` loop. -/
def sortChainsIdx (chains : List (List FlattenedEdge)) : List (ℕ × ℕ) :=
  (chains.enum.map (fun p => (p.1, p.2.length))).foldr insertChain []

/-- Find the chain the edge is appended to: the first chain, in
descending-length order, that is empty (`if not mesh.edges: break`, defensive)
or whose last edge the new edge follows. -/
def pickChain (chains : List (List FlattenedEdge)) (e : FlattenedEdge) :
    Option ℕ :=
  ((sortChainsIdx chains).find? (fun p =>
    match (chains.getD p.1 []).getLast? with
    | none => true
    | some last => e.follows last)).map (fun p => p.1)

/-- One iteration of the `split` loop for the edge's own type: append to the
found chain, or start a new chain. -/
def splitStep (chains : List (List FlattenedEdge)) (e : FlattenedEdge) :
    List (List FlattenedEdge) :=
  match pickChain chains e with
  | some i => chains.set i (chains.getD i [] ++ [e])
  | none => chains ++ [[e]]

/-- Dispatch one edge of the `split` loop to the chain list of its type. -/
def splitFold (st : SplitResult) (e : FlattenedEdge) : SplitResult :=
  match e.edgeType with
  | .CUT => ⟨splitStep st.cut e, st.engrave⟩
  | .ENGRAVE => ⟨st.cut, splitStep st.engrave e⟩

/-- `FlattenedMesh.split`: greedily partition the edge list into continuous
chains per edge type. -/
def FlattenedMesh.split (m : FlattenedMesh) : SplitResult :=
  m.edges.foldl splitFold ⟨[], []⟩

/-- Axis-aligned bounding box; fields default to an inverted (empty) box. -/
structure AABB where
  min_x : XR
  min_y : XR
  max_x : XR
  max_y : XR
deriving DecidableEq, Repr

/-- `AABB()`: the inverted default box. -/
def AABB.empty : AABB := ⟨XR.pinf, XR.pinf, XR.ninf, XR.ninf⟩

/-- `__bool__`: non-empty iff `min_x < max_x and min_y < max_y`. -/
def AABB.toBool (a : AABB) : Bool :=
  a.min_x.ltb a.max_x && a.min_y.ltb a.max_y

/-- `width = max_x - min_x`. -/
def AABB.width (a : AABB) : XR := a.max_x.sub a.min_x

/-- `height = max_y - min_y`. -/
def AABB.height (a : AABB) : XR := a.max_y.sub a.min_y

/-- `min_point = (min_x, min_y)`. -/
def AABB.min_point (a : AABB) : XR × XR := (a.min_x, a.min_y)

/-- `extend`: grow the box to contain a point. -/
def AABB.extend (a : AABB) (p : Vector2) : AABB :=
  ⟨a.min_x.min2 (XR.fin p.1), a.min_y.min2 (XR.fin p.2),
   a.max_x.max2 (XR.fin p.1), a.max_y.max2 (XR.fin p.2)⟩

/-- `join`: grow the box to contain another box. -/
def AABB.join (a b : AABB) : AABB :=
  ⟨a.min_x.min2 b.min_x, a.min_y.min2 b.min_y,
   a.max_x.max2 b.max_x, a.max_y.max2 b.max_y⟩

/-- `translated`: shift every coordinate by the vector. -/
def AABB.translated (a : AABB) (v : Vector2) : AABB :=
  ⟨a.min_x.add (XR.fin v.1), a.min_y.add (XR.fin v.2),
   a.max_x.add (XR.fin v.1), a.max_y.add (XR.fin v.2)⟩

/-- AABB of a flattened mesh: extend over every endpoint of every edge. -/
def FlattenedMesh.aabb (m : FlattenedMesh) : AABB :=
  m.edges.foldl (fun a e => (a.extend e.verts.1).extend e.verts.2) AABB.empty

/-- The 2D boundary of one exported object: polygons grouped by type, plus the
placement the packer assigns (rotation in degrees, page-local translation,
page number). -/
structure MeshBoundary where
  name : String
  polygons : List (MeshType × List FlattenedMesh)
  rotation : ℤ
  translation : XR × XR
  page_num : ℕ
deriving DecidableEq, Repr

/-- The lazily cached boundary AABB: join of every polygon's AABB, over all
types (the cache is never invalidated, so it is modelled as a function). -/
def MeshBoundary.aabb (mb : MeshBoundary) : AABB :=
  mb.polygons.foldl
    (fun a p => p.2.foldl (fun a' poly => a'.join poly.aabb) a) AABB.empty

/-- `transform_into`: set `translation = position - aabb.min_point`; if the
target size's orientation matches the AABB's, rotation is 0, else rotation is
90 and `translation.y` is additionally shifted by `aabb.width`. -/
def MeshBoundary.transform_into (mb : MeshBoundary) (position : Vector2)
    (size : Vector2) : MeshBoundary :=
  let aabb := mb.aabb
  let t := ((XR.fin position.1).sub aabb.min_x,
            (XR.fin position.2).sub aabb.min_y)
  if (decide (size.2 < size.1)) == aabb.height.ltb aabb.width then
    ⟨mb.name, mb.polygons, 0, t, mb.page_num⟩
  else
    ⟨mb.name, mb.polygons, 90, (t.1, t.2.add aabb.width), mb.page_num⟩

/-- Immutable export configuration. -/
structure Options where
  laser_width : ℚ
  material_width : ℚ
  material_length : ℚ
  margin : ℚ
  shape_padding : ℚ
  pack_sort : String
  pack_may_rotate : Bool
  shape_table : Bool
deriving DecidableEq, Repr

/-- `page_offset`: X offset of a page, `page_index * (material_width +
margin)`. -/
def Options.page_offset (o : Options) (page_index : ℕ) : ℚ :=
  page_index * (o.material_width + o.margin)

/-! ## Packing -/

/-- Errors raised by the packing module (both surface as Python
`ValueError`). -/
inductive PackError where
  | unknownSort (name : String) : PackError
  | sizesMustBeFinite : PackError
deriving DecidableEq, Repr

/-- `_mm_to_int`: guard that the value is finite, then truncate `mm * 1000`
to an integer number of micrometers. -/
def mm_to_int (mm : XR) : Except PackError ℤ :=
  if XR.ninf.ltb mm && mm.ltb XR.pinf then .ok (pyInt (mm.toQ * 1000))
  else .error .sizesMustBeFinite

/-- `_int_to_mm`: micrometers back to millimeters. -/
def int_to_mm (i : ℤ) : ℚ := (i : ℚ) / 1000

/-- A rectangle handed to the packer: padded size in micrometers plus the
shape's index. -/
structure RectIn where
  w : ℤ
  h : ℤ
  rid : ℕ
deriving DecidableEq, Repr

/-- Stable insertion of `a` into a list sorted by descending key. -/
def insertDescBy (key : RectIn → ℚ) (a : RectIn) :
    List RectIn → List RectIn
  | [] => [a]
  | b :: rest =>
    if key b ≤ key a then a :: b :: rest else b :: insertDescBy key a rest

/-- Stable sort by descending key. -/
def sortDescBy (key : RectIn → ℚ) (l : List RectIn) : List RectIn :=
  l.foldr (insertDescBy key) []

/-- Modelled from the spec: the rectpack sort heuristics (the rectpack
library is vendored as an egg and absent from src/).  Seven named heuristics,
"each a comparator over the padded rectangle dimensions, descending unless
noted"; an unknown name yields `none` (the source's `getattr` raises). -/
def sortAlgo (name : String) : Option (List RectIn → List RectIn) :=
  if name == "SORT_NONE" then some (fun l => l)
  else if name == "SORT_AREA" then some (sortDescBy (fun r => ((r.w * r.h : ℤ) : ℚ)))
  else if name == "SORT_PERI" then some (sortDescBy (fun r => ((r.w + r.h : ℤ) : ℚ)))
  else if name == "SORT_DIFF" then some (sortDescBy (fun r => ((r.w - r.h : ℤ).natAbs : ℚ)))
  else if name == "SORT_SSIDE" then some (sortDescBy (fun r => ((min r.w r.h : ℤ) : ℚ)))
  else if name == "SORT_LSIDE" then some (sortDescBy (fun r => ((max r.w r.h : ℤ) : ℚ)))
  else if name == "SORT_RATIO" then some (sortDescBy (fun r => (r.w : ℚ) / (r.h : ℚ)))
  else none

/-- A placed rectangle as reported by `packer.rect_list()`:
`(bin index, x, y, placed width, placed height, shape index)`. -/
structure PRect where
  bin : ℕ
  x : ℤ
  y : ℤ
  w : ℤ
  h : ℤ
  rid : ℕ
deriving DecidableEq, Repr

/-- Modelled from the spec: one shelf of a page (y position, width already
used, shelf height). -/
structure PShelf where
  y : ℤ
  usedW : ℤ
  h : ℤ
deriving DecidableEq, Repr

/-- Modelled from the spec: one open page of the packer. -/
structure RBin where
  shelves : List PShelf
  usedH : ℤ
  usedArea : ℤ
deriving DecidableEq, Repr

/-- Try to put a `w × h` rectangle on an existing shelf. -/
def fitShelf (binW w h : ℤ) : List PShelf → Option (ℤ × ℤ × List PShelf)
  | [] => none
  | s :: rest =>
    if s.usedW + w ≤ binW ∧ h ≤ s.h then
      some (s.usedW, s.y, ⟨s.y, s.usedW + w, s.h⟩ :: rest)
    else
      match fitShelf binW w h rest with
      | some (x, y, rest') => some (x, y, s :: rest')
      | none => none

/-- Try to put a `w × h` rectangle into a page: an existing shelf first, else
a new shelf at the top of the used region. -/
def placeInBin (binW binH : ℤ) (b : RBin) (w h : ℤ) :
    Option (ℤ × ℤ × RBin) :=
  match fitShelf binW w h b.shelves with
  | some (x, y, sh') => some (x, y, ⟨sh', b.usedH, b.usedArea + w * h⟩)
  | none =>
    if b.usedH + h ≤ binH ∧ w ≤ binW then
      some (0, b.usedH,
        ⟨b.shelves ++ [⟨b.usedH, w, h⟩], b.usedH + h, b.usedArea + w * h⟩)
    else none

/-- Try a page in the given orientation, then (if rotation is allowed) with
width and height swapped; reports the placed orientation. -/
def attemptPlace (binW binH : ℤ) (rot : Bool) (b : RBin) (w h : ℤ) :
    Option (ℤ × ℤ × ℤ × ℤ × RBin) :=
  match placeInBin binW binH b w h with
  | some (x, y, b') => some (x, y, w, h, b')
  | none =>
    if rot then
      match placeInBin binW binH b h w with
      | some (x, y, b') => some (x, y, h, w, b')
      | none => none
    else none

/-- Modelled from the spec: best-bin-fit page selection — among existing
pages that can take the rectangle, pick the one with the least remaining free
space (ties to the earliest page).  Returns
`(free space, page index, x, y, placed w, placed h, updated page)`. -/
def bestBinGo (binW binH : ℤ) (rot : Bool) (w h : ℤ) :
    List RBin → ℕ → Option (ℤ × ℕ × ℤ × ℤ × ℤ × ℤ × RBin)
  | [], _ => none
  | b :: rest, idx =>
    let cur := match attemptPlace binW binH rot b w h with
      | some (x, y, pw, ph, b') =>
        some (binW * binH - b.usedArea, idx, x, y, pw, ph, b')
      | none => none
    let best := bestBinGo binW binH rot w h rest (idx + 1)
    match cur, best with
    | none, r => r
    | some l, none => some l
    | some l, some r => if r.1 < l.1 then some r else some l

/-- Place one rectangle: best existing page, else a fresh page; a rectangle
that fits no page at all is dropped (left unplaced). -/
def packOne (binW binH : ℤ) (rot : Bool) (bins : List RBin) (r : RectIn) :
    List RBin × Option PRect :=
  match bestBinGo binW binH rot r.w r.h bins 0 with
  | some (_, idx, x, y, pw, ph, b') =>
    (bins.set idx b', some ⟨idx, x, y, pw, ph, r.rid⟩)
  | none =>
    match attemptPlace binW binH rot ⟨[], 0, 0⟩ r.w r.h with
    | some (x, y, pw, ph, b') =>
      (bins ++ [b'], some ⟨bins.length, x, y, pw, ph, r.rid⟩)
    | none => (bins, none)

/-- Modelled from the spec: `packer.pack()` followed by `rect_list()` —
rectangles (already sorted) placed in order into unlimited identical pages. -/
def packAll (binW binH : ℤ) (rot : Bool) (rects : List RectIn) : List PRect :=
  (rects.foldl (fun st r =>
    match packOne binW binH rot st.1 r with
    | (bins', some pr) => (bins', st.2 ++ [pr])
    | (bins', none) => (bins', st.2)) (([] : List RBin), ([] : List PRect))).2

/-- The `add_rect` loop of `_smart_pack`: convert each shape's padded size to
micrometers (left argument first), failing on a non-finite dimension. -/
def collectRectsGo (options : Options) :
    ℕ → List MeshBoundary → Except PackError (List RectIn)
  | _, [] => .ok []
  | idx, shape :: rest =>
    match mm_to_int (shape.aabb.width.add (XR.fin (2 * options.shape_padding))),
          mm_to_int (shape.aabb.height.add (XR.fin (2 * options.shape_padding))) with
    | .ok wi, .ok hi =>
      match collectRectsGo options (idx + 1) rest with
      | .ok rs => .ok (⟨wi, hi, idx⟩ :: rs)
      | .error e => .error e
    | .error e, _ => .error e
    | _, .error e => .error e

/-- All padded shape rectangles, indexed by position in the shape list. -/
def collectRects (shapes : List MeshBoundary) (options : Options) :
    Except PackError (List RectIn) :=
  collectRectsGo options 0 shapes

/-- `_smart_pack` up to `rect_list()`: resolve the sort heuristic, convert the
page's usable size and every padded shape size to micrometers, sort, pack. -/
def smartPackRects (shapes : List MeshBoundary) (options : Options) :
    Except PackError (List PRect) :=
  match sortAlgo options.pack_sort with
  | none => .error (.unknownSort options.pack_sort)
  | some sort_algo =>
    match mm_to_int (XR.fin (options.material_width - 2 * options.margin)),
          mm_to_int (XR.fin (options.material_length - 2 * options.margin)) with
    | .ok binW, .ok binH =>
      match collectRects shapes options with
      | .ok rects =>
        .ok (packAll binW binH options.pack_may_rotate (sort_algo rects))
      | .error e => .error e
    | .error e, _ => .error e
    | _, .error e => .error e

/-- Result of packing. -/
structure PackResult where
  canvas_bounds : AABB
  covered_area : ℚ
  num_pages : ℕ
deriving DecidableEq, Repr

/-- `__bool__`: valid iff some shape was packed (non-empty canvas bounds). -/
def PackResult.toBool (r : PackResult) : Bool := r.canvas_bounds.toBool

/-- Placeholder boundary for out-of-range shape indices (unreachable: the
packer only reports indices it was given). -/
def dummyMB : MeshBoundary := ⟨"", [], 0, (XR.fin 0, XR.fin 0), 0⟩

/-- Body of the `for rect in packer.rect_list()` loop: convert back to
millimeters, offset by the page, grow the canvas bounds, transform the shape
into place, record the covered area and the page index.  The state is
`(packed_bounds, covered_areas, bin_idx_max, shapes)`. -/
def applyRect (options : Options)
    (st : AABB × List ℚ × ℕ × List MeshBoundary) (rect : PRect) :
    AABB × List ℚ × ℕ × List MeshBoundary :=
  let padded_position : Vector2 :=
    (int_to_mm rect.x + options.page_offset rect.bin, int_to_mm rect.y)
  let padded_size : Vector2 := (int_to_mm rect.w, int_to_mm rect.h)
  let packed_bounds := (st.1.extend padded_position).extend
    (padded_position.1 + padded_size.1, padded_position.2 + padded_size.2)
  let position : Vector2 :=
    (padded_position.1 + options.margin, padded_position.2 + options.margin)
  let size : Vector2 :=
    (padded_size.1 - 2 * options.margin, padded_size.2 - 2 * options.margin)
  let shapes := st.2.2.2
  let shape' := (shapes.getD rect.rid dummyMB).transform_into position size
  let shape'' : MeshBoundary :=
    ⟨shape'.name, shape'.polygons, shape'.rotation, shape'.translation, rect.bin⟩
  (packed_bounds, st.2.1 ++ [padded_size.1 * padded_size.2],
   max st.2.2.1 rect.bin, shapes.set rect.rid shape'')

/-- `_smart_pack`: pack, apply every placement to its shape, and assemble the
`PackResult` (pages = largest page index + 1, starting from 0). -/
def smartPack (shapes : List MeshBoundary) (options : Options) :
    Except PackError (PackResult × List MeshBoundary) :=
  match smartPackRects shapes options with
  | .error e => .error e
  | .ok rects =>
    let st := rects.foldl (applyRect options) (AABB.empty, [], 0, shapes)
    .ok (⟨st.1, st.2.1.sum, st.2.2.1 + 1⟩, st.2.2.2)

/-! ## Document assembly -/

/-- Errors of the SVG writer; `noShapes` is the `NoShapes` condition. -/
inductive ExportError where
  | noShapes : ExportError
  | packFailed (e : PackError) : ExportError
deriving DecidableEq, Repr

/-- One shape's group in the SVG document. -/
structure SvgShapeGroup where
  name : String
  translation : XR × XR
  rotation : ℤ
  page_num : ℕ
  polylines : List (Bool × List Vector2)
deriving DecidableEq, Repr

/-- The assembled document: the model of the file `write` produces, together
with the returned canvas size. -/
structure SvgDoc where
  num_pages : ℕ
  groups : List SvgShapeGroup
  width : ℤ
  height : ℤ
deriving DecidableEq, Repr

/-- `write` after shape collection: pack, raise `NoShapes` on a falsy result
before anything is emitted, else assemble the document (one group per shape,
each polygon a closed/open point list) and return it with the reported canvas
size `(int(page_offset(num_pages)), int(material_length))`. -/
def write (shapes : List MeshBoundary) (options : Options) :
    Except ExportError SvgDoc :=
  match smartPack shapes options with
  | .error e => .error (.packFailed e)
  | .ok (pack_result, shapes') =>
    if pack_result.toBool = false then .error .noShapes
    else
      .ok ⟨pack_result.num_pages,
        shapes'.map (fun s =>
          ⟨s.name, s.translation, s.rotation, s.page_num,
           s.polygons.foldl (fun acc p =>
             acc ++ p.2.map (fun fm => (fm.is_closed, fm.iter_points))) []⟩),
        pyInt (options.page_offset pack_result.num_pages),
        pyInt options.material_length⟩

/-! ## Kerf compensation (3D, over the reals)

The kerf pass normalises vectors with a square root, so this module models
coordinates as real numbers; its definitions are `noncomputable` for that
reason only, and mirror `add_kerf` line by line. -/

/-- 3D vector. -/
abbrev Vec3 := ℝ × ℝ × ℝ

/-- Componentwise sum. -/
noncomputable def add3 (a b : Vec3) : Vec3 :=
  (a.1 + b.1, a.2.1 + b.2.1, a.2.2 + b.2.2)

/-- Componentwise difference. -/
noncomputable def sub3 (a b : Vec3) : Vec3 :=
  (a.1 - b.1, a.2.1 - b.2.1, a.2.2 - b.2.2)

/-- Scalar multiple. -/
noncomputable def smul3 (c : ℝ) (v : Vec3) : Vec3 :=
  (c * v.1, c * v.2.1, c * v.2.2)

/-- Dot product. -/
noncomputable def dot3 (a b : Vec3) : ℝ :=
  a.1 * b.1 + a.2.1 * b.2.1 + a.2.2 * b.2.2

/-- Cross product. -/
noncomputable def cross3 (a b : Vec3) : Vec3 :=
  (a.2.1 * b.2.2 - a.2.2 * b.2.1,
   a.2.2 * b.1 - a.1 * b.2.2,
   a.1 * b.2.1 - a.2.1 * b.1)

/-- The zero vector (a fresh `defaultdict` entry). -/
def zero3 : Vec3 := (0, 0, 0)

/-- Euclidean length. -/
noncomputable def vlen (v : Vec3) : ℝ := Real.sqrt (dot3 v v)

/-- `Vector.normalized()`: scale to unit length (the zero vector stays
zero, as in mathutils, since `0⁻¹ = 0` here). -/
noncomputable def vnormalized (v : Vec3) : Vec3 := smul3 (vlen v)⁻¹ v

/-- `clamp_vector`: clamp every component to `[-1, 1]`. -/
noncomputable def clampVec (v : Vec3) : Vec3 :=
  (max (-1) (min v.1 1), max (-1) (min v.2.1 1), max (-1) (min v.2.2 1))

/-- A loop incident to a vertex: the loop's edge (by index) and the loop's
face normal. -/
structure BMLoop where
  edge : ℕ
  face_normal : Vec3

/-- A mesh vertex: position, boundary flag, incident loops. -/
structure BMVert where
  co : Vec3
  is_boundary : Bool
  link_loops : List BMLoop

/-- A mesh edge: endpoint vertex indices and the flags `add_kerf` reads. -/
structure BMEdge where
  v1 : ℕ
  v2 : ℕ
  is_manifold : Bool
  is_wire : Bool
  seam : Bool

/-- The BMesh data `add_kerf` operates on; vertex and edge indices are list
positions (`ensure_lookup_table` semantics). -/
structure BMesh where
  verts : List BMVert
  edges : List BMEdge

/-- Failures of the kerf pass: the `MeshAnalysisError` raise, the
`assert len(kerfs) == 1` assertion, and invalid index accesses (which crash
Python). -/
inductive KerfError where
  | tangentNotUnit (object_name : String) (tangent : Vec3) : KerfError
  | edgeVisitedTwice : KerfError
  | invalidLookup : KerfError

/-- The `1e-6` tolerance of the tangent length check. -/
noncomputable def kerfTol : ℝ := 1 / 1000000

/-- `e.other_vert(v)` by index: `None` when `v` is on neither end. -/
def otherVertIdx (e : BMEdge) (i : ℕ) : Option ℕ :=
  if e.v1 = i then some e.v2 else if e.v2 = i then some e.v1 else none

/-- Body of the inner loop of `add_kerf`'s first pass, for one loop of one
boundary vertex: skip manifold/wire/seam edges, compute the normalised
tangent `normalize(normalize(other - v) × n)`, validate its length, and
record `(edge index, tangent)`. -/
noncomputable def collectLoop (bm : BMesh) (object_name : String) (i : ℕ)
    (v : BMVert) (l : BMLoop) : Except KerfError (Option (ℕ × Vec3)) :=
  match bm.edges.get? l.edge with
  | none => .error .invalidLookup
  | some e =>
    if e.is_manifold || e.is_wire then .ok none
    else if e.seam then .ok none
    else
      match otherVertIdx e i with
      | none => .error .invalidLookup
      | some j =>
        match bm.verts.get? j with
        | none => .error .invalidLookup
        | some vo =>
          let loop_vec := vnormalized (sub3 vo.co v.co)
          let tangent := vnormalized (cross3 loop_vec l.face_normal)
          if |vlen tangent - 1| > kerfTol then
            .error (.tangentNotUnit object_name tangent)
          else .ok (some (l.edge, tangent))

/-- First pass over the loops of one vertex, in order. -/
noncomputable def collectLoops (bm : BMesh) (object_name : String) (i : ℕ)
    (v : BMVert) : List BMLoop → Except KerfError (List (ℕ × Vec3))
  | [] => .ok []
  | l :: ls =>
    match collectLoop bm object_name i v l with
    | .error err => .error err
    | .ok none => collectLoops bm object_name i v ls
    | .ok (some p) =>
      match collectLoops bm object_name i v ls with
      | .ok rest => .ok (p :: rest)
      | .error err => .error err

/-- First pass over `bm.verts` (as `(index, vertex)` pairs): non-boundary
vertices are skipped. -/
noncomputable def collectVerts (bm : BMesh) (object_name : String) :
    List (ℕ × BMVert) → Except KerfError (List (ℕ × Vec3))
  | [] => .ok []
  | (i, v) :: rest =>
    if v.is_boundary then
      match collectLoops bm object_name i v v.link_loops with
      | .error err => .error err
      | .ok ts =>
        match collectVerts bm object_name rest with
        | .ok acc => .ok (ts ++ acc)
        | .error err => .error err
    else collectVerts bm object_name rest

/-- All `(edge index, tangent)` records of the first pass, in visit order. -/
noncomputable def collectTangents (bm : BMesh) (object_name : String) :
    Except KerfError (List (ℕ × Vec3)) :=
  collectVerts bm object_name bm.verts.enum

/-- `edge_kerfs[e.index].append(tangent)` on an association list. -/
noncomputable def alAppend (d : List (ℕ × List Vec3)) (k : ℕ) (t : Vec3) :
    List (ℕ × List Vec3) :=
  match d with
  | [] => [(k, [t])]
  | (k', ts) :: rest =>
    if k' = k then (k', ts ++ [t]) :: rest else (k', ts) :: alAppend rest k t

/-- The `edge_kerfs` dictionary, keyed by edge index in insertion order. -/
noncomputable def groupKerfs (pairs : List (ℕ × Vec3)) :
    List (ℕ × List Vec3) :=
  pairs.foldl (fun d p => alAppend d p.1 p.2) []

/-- `vtx_kerf_directions[v.index] += kerf_direction` on an association list
(a fresh entry starts from the zero vector). -/
noncomputable def alAdd (d : List (ℕ × Vec3)) (k : ℕ) (t : Vec3) :
    List (ℕ × Vec3) :=
  match d with
  | [] => [(k, t)]
  | (k', s) :: rest =>
    if k' = k then (k', add3 s t) :: rest else (k', s) :: alAdd rest k t

/-- Second pass: check each edge was recorded exactly once (the source's
`assert`), then add its single tangent to both endpoint vertices. -/
noncomputable def vtxDirsGo (bm : BMesh) (d : List (ℕ × Vec3)) :
    List (ℕ × List Vec3) → Except KerfError (List (ℕ × Vec3))
  | [] => .ok d
  | (eidx, kerfs) :: rest =>
    match kerfs with
    | [t] =>
      match bm.edges.get? eidx with
      | some e => vtxDirsGo bm (alAdd (alAdd d e.v1 t) e.v2 t) rest
      | none => .error .invalidLookup
    | _ => .error .edgeVisitedTwice

/-- Third pass: for each accumulated vertex direction, clamp it and displace
the vertex by `clamped * kerf_width`. -/
noncomputable def dispVertsGo (kerf_width : ℝ) (verts : List BMVert) :
    List (ℕ × Vec3) → Except KerfError (List BMVert)
  | [] => .ok verts
  | (vi, dir) :: rest =>
    match verts.get? vi with
    | none => .error .invalidLookup
    | some v =>
      dispVertsGo kerf_width
        (verts.set vi
          ⟨add3 v.co (smul3 kerf_width (clampVec dir)), v.is_boundary,
           v.link_loops⟩)
        rest

/-- `add_kerf`: collect all tangents from the original vertex positions,
aggregate them per edge and then per vertex, and only then displace. -/
noncomputable def add_kerf (bm : BMesh) (laser_width : ℝ)
    (object_name : String) : Except KerfError BMesh :=
  match collectTangents bm object_name with
  | .error err => .error err
  | .ok pairs =>
    match vtxDirsGo bm [] (groupKerfs pairs) with
    | .error err => .error err
    | .ok dirs =>
      match dispVertsGo (laser_width / 2) bm.verts dirs with
      | .error err => .error err
      | .ok verts' => .ok ⟨verts', bm.edges⟩

/-! ### Specification-side views of the kerf pass -/

/-- A loop qualifies for kerf compensation iff its edge exists and is neither
manifold, wire nor seam. -/
def edgeQualifies (bm : BMesh) (l : BMLoop) : Bool :=
  match bm.edges.get? l.edge with
  | none => false
  | some e => !(e.is_manifold || e.is_wire) && !e.seam

/-- The qualifying `(vertex index, loop)` pairs of a vertex list. -/
def qualOf (bm : BMesh) (ps : List (ℕ × BMVert)) : List (ℕ × BMLoop) :=
  (ps.filter (fun p => p.2.is_boundary)).flatMap
    (fun p => (p.2.link_loops.filter (edgeQualifies bm)).map (fun l => (p.1, l)))

/-- The qualifying `(vertex index, loop)` pairs of the whole mesh. -/
def qualPairs (bm : BMesh) : List (ℕ × BMLoop) := qualOf bm bm.verts.enum

/-- Placeholder vertex for out-of-range accesses. -/
def dummyVert : BMVert := ⟨zero3, false, []⟩

/-- Placeholder edge for out-of-range accesses. -/
def dummyEdge : BMEdge := ⟨0, 0, false, false, false⟩

/-- The tangent a qualifying loop contributes, computed from the mesh's
(original) vertex positions. -/
noncomputable def loopTangent (bm : BMesh) (i : ℕ) (l : BMLoop) : Vec3 :=
  let e := bm.edges.getD l.edge dummyEdge
  let v := bm.verts.getD i dummyVert
  let vo := bm.verts.getD ((otherVertIdx e i).getD 0) dummyVert
  vnormalized (cross3 (vnormalized (sub3 vo.co v.co)) l.face_normal)

/-- Whether the edge at `eidx` is incident to vertex `vi`. -/
def edgeIncident (bm : BMesh) (eidx vi : ℕ) : Bool :=
  match bm.edges.get? eidx with
  | some e => e.v1 == vi || e.v2 == vi
  | none => false

/-- The accumulated kerf direction of a vertex: the sum of the tangents of
its qualifying incident edges. -/
noncomputable def kerfSum (bm : BMesh) (vi : ℕ) : Vec3 :=
  ((qualPairs bm).filter (fun p => edgeIncident bm p.2.edge vi)).foldl
    (fun acc p => add3 acc (loopTangent bm p.1 p.2)) zero3

/-- Position of vertex `i`. -/
noncomputable def vertCo (bm : BMesh) (i : ℕ) : Vec3 :=
  (bm.verts.getD i dummyVert).co

/-- Well-formedness of edges: distinct in-range endpoints (BMesh forbids
degenerate edges). -/
def edgesOk (bm : BMesh) : Bool :=
  bm.edges.all (fun e =>
    !(e.v1 == e.v2) && decide (e.v1 < bm.verts.length)
      && decide (e.v2 < bm.verts.length))

/-- Well-formedness of loops: every loop of a boundary vertex names an
existing edge incident to that vertex. -/
def loopsOk (bm : BMesh) : Bool :=
  bm.verts.enum.all (fun p =>
    !p.2.is_boundary ||
    p.2.link_loops.all (fun l =>
      match bm.edges.get? l.edge with
      | none => false
      | some e => e.v1 == p.1 || e.v2 == p.1))

/-- Some qualifying loop's tangent fails the `1e-6` unit-length check. -/
def badTangent (bm : BMesh) : Prop :=
  ∃ p ∈ qualPairs bm, |vlen (loopTangent bm p.1 p.2) - 1| > kerfTol

/-- Every qualifying edge is met by exactly one qualifying loop (the
invariant behind the source's `assert`). -/
def keysOnce (bm : BMesh) : Prop :=
  ((qualPairs bm).map (fun p => p.2.edge)).Nodup

/-! ## Concrete fixtures -/

/-- A closed unit-square flattened mesh (four CUT edges). -/
def sqMesh : FlattenedMesh := ⟨[
  ⟨((0, 0), (1, 0)), .CUT⟩, ⟨((1, 0), (1, 1)), .CUT⟩,
  ⟨((1, 1), (0, 1)), .CUT⟩, ⟨((0, 1), (0, 0)), .CUT⟩]⟩

/-- Three collinear CUT edges: `a1C = (0,0)→(1,0)`, `f1C = (2,0)→(3,0)`,
`a2C = (1,0)→(2,0)`. -/
def a1C : FlattenedEdge := ⟨((0, 0), (1, 0)), .CUT⟩

/-- Second split fixture edge. -/
def f1C : FlattenedEdge := ⟨((2, 0), (3, 0)), .CUT⟩

/-- Third split fixture edge. -/
def a2C : FlattenedEdge := ⟨((1, 0), (2, 0)), .CUT⟩

/-- The split fixture mesh, edge order `a1C, f1C, a2C`. -/
def splitFixture : FlattenedMesh := ⟨[a1C, f1C, a2C]⟩

/-- A flattened 1000×1000 square shape. -/
def sq1000 : FlattenedMesh := ⟨[
  ⟨((0, 0), (1000, 0)), .CUT⟩, ⟨((1000, 0), (1000, 1000)), .CUT⟩,
  ⟨((1000, 1000), (0, 1000)), .CUT⟩, ⟨((0, 1000), (0, 0)), .CUT⟩]⟩

/-- The unit-square scenario shape. -/
def unitShape : MeshBoundary := ⟨"square", [(.CUT, [sq1000])], 0, (XR.fin 0, XR.fin 0), 0⟩

/-- Options of the unit-square scenario: laser 0, 2000×2000 material, no
margin, no padding, no rotation. -/
def optsC2 : Options := ⟨0, 2000, 2000, 0, 0, "SORT_NONE", false, false⟩

/-- A flattened 300×100 rectangle shape. -/
def rect300 : FlattenedMesh := ⟨[
  ⟨((0, 0), (300, 0)), .CUT⟩, ⟨((300, 0), (300, 100)), .CUT⟩,
  ⟨((300, 100), (0, 100)), .CUT⟩, ⟨((0, 100), (0, 0)), .CUT⟩]⟩

/-- The rotation scenario shape. -/
def shape300 : MeshBoundary := ⟨"r300", [(.CUT, [rect300])], 0, (XR.fin 0, XR.fin 0), 0⟩

/-- Options of the rotation scenario: 150×250 usable area, rotation
allowed. -/
def optsC5 : Options := ⟨0, 150, 250, 0, 0, "SORT_NONE", true, false⟩

/-- Options used by the no-shapes witness. -/
def optsC3 : Options := ⟨0, 100, 100, 0, 0, "SORT_PERI", false, false⟩

/-- Options used by the page-count witness. -/
def optsC10 : Options := ⟨0, 100, 100, 0, 0, "SORT_AREA", true, false⟩

/-- Options used by the finiteness witness. -/
def optsC7 : Options := ⟨0, 100, 100, 0, 0, "SORT_NONE", false, false⟩

/-- A shape with no polygons: its AABB is empty, so its padded width is the
non-finite `-inf - inf`. -/
def emptyShape7 : MeshBoundary := ⟨"empty", [], 0, (XR.fin 0, XR.fin 0), 0⟩

/-- Kerf witness mesh: one non-manifold, non-wire, non-seam edge from
`(0,0,0)` to `(1,0,0)`, one loop at the first vertex with face normal
`(0,0,1)`. -/
noncomputable def demoBM : BMesh :=
  ⟨[⟨(0, 0, 0), true, [⟨0, (0, 0, 1)⟩]⟩, ⟨(1, 0, 0), true, []⟩],
   [⟨0, 1, false, false, false⟩]⟩

/-- The kerf witness mesh after `add_kerf` with laser width 2: both endpoint
vertices displaced by the clamped tangent `(0, -1, 0)`. -/
noncomputable def demoOut : BMesh :=
  ⟨[⟨(0, -1, 0), true, [⟨0, (0, 0, 1)⟩]⟩, ⟨(1, -1, 0), true, []⟩],
   [⟨0, 1, false, false, false⟩]⟩

/-- Decidable equality of `Except` results. -/
instance {ε α : Type} [DecidableEq ε] [DecidableEq α] : DecidableEq (Except ε α)
  | .ok a, .ok b =>
    if h : a = b then .isTrue (by rw [h]) else .isFalse (fun heq => h (Except.ok.inj heq))
  | .ok _, .error _ => .isFalse (fun hh => Except.noConfusion hh)
  | .error _, .ok _ => .isFalse (fun hh => Except.noConfusion hh)
  | .error e, .error f =>
    if h : e = f then .isTrue (by rw [h]) else .isFalse (fun heq => h (Except.error.inj heq))

/-! ### Binary64 float model

The program's AABB coordinates are Python floats.  The exact-rational
`XR.add` above idealizes their addition; the definitions below model the
rounding of IEEE-754 binary64 (round to nearest, ties to even, 53-bit
significand) for values in the format's normal range — exponent overflow
and subnormals do not arise in this development. -/

/-- Fueled binary digit count (fuel `f ≥ n` suffices). -/
def bitsGo : ℕ → ℕ → ℕ
  | 0, _ => 0
  | f + 1, n => if n = 0 then 0 else bitsGo f (n / 2) + 1

/-- Number of binary digits of `n`: `⌊log₂ n⌋ + 1` for positive `n`. -/
def bits (n : ℕ) : ℕ := bitsGo n n

/-- Round `a / b` to the nearest integer, ties to even (`b` positive). -/
def rneDiv (a b : ℕ) : ℕ :=
  let n := a / b
  let r := a % b
  if 2 * r < b then n
  else if b < 2 * r then n + 1
  else if n % 2 = 0 then n else n + 1

/-- `n * 2 ^ e` as a rational. -/
def scaleQ (n : ℕ) (e : ℤ) : ℚ :=
  if 0 ≤ e then ((n * 2 ^ e.toNat : ℕ) : ℚ)
  else (n : ℚ) / ((2 ^ (-e).toNat : ℕ) : ℚ)

/-- Binary64 rounding of the positive rational `a / b`: scale into
`(2^52, 2^54)` by a power of two, round the significand to nearest-even at
integer precision, and scale back. -/
def fl64Pos (a b : ℕ) : ℚ :=
  let E : ℤ := (bits a : ℤ) - (bits b : ℤ)
  let s : ℤ := 53 - E
  let a' : ℕ := if 0 ≤ s then a * 2 ^ s.toNat else a
  let b' : ℕ := if 0 ≤ s then b else b * 2 ^ (-s).toNat
  if 2 ^ 53 * b' ≤ a' then scaleQ (rneDiv a' (2 * b')) (E - 52)
  else scaleQ (rneDiv a' b') (E - 53)

/-- Binary64 (Python float) rounding of a rational value. -/
def fl64 (x : ℚ) : ℚ :=
  if x < 0 then -fl64Pos (-x).num.toNat (-x).den
  else if x = 0 then 0
  else fl64Pos x.num.toNat x.den

/-- Float addition on extended values: the rounded sum on finite values,
`XR.add` on the infinities (where float addition is exact). -/
def XR.addF : XR → XR → XR
  | XR.fin a, XR.fin b => XR.fin (fl64 (a + b))
  | a, b => XR.add a b

/-- `AABB.translated` with its coordinate additions performed in binary64,
as the source's Python float `+` does. -/
def AABB.translatedF (a : AABB) (v : Vector2) : AABB :=
  ⟨a.min_x.addF (XR.fin v.1), a.min_y.addF (XR.fin v.2),
   a.max_x.addF (XR.fin v.1), a.max_y.addF (XR.fin v.2)⟩

/-- A coordinate for which the translation step is exact: if finite, the
coordinate is itself a float value and its sum with the offset rounds
exactly. -/
def exactStep (c : XR) (t : ℚ) : Prop :=
  ∀ q, c = XR.fin q → fl64 (q + t) = q + t ∧ fl64 q = q

/-! ## Theorems -/

/-- Adding a rational and then its negation returns any extended rational. -/
lemma XR.add_fin_add_neg (x : XR) (q : ℚ) :
    (x.add (XR.fin q)).add (XR.fin (-q)) = x := by
  cases x with
  | ninf => rfl
  | pinf => rfl
  | fin a =>
    show XR.fin (a + q + -q) = XR.fin a
    norm_num

/-- In the exact-rational idealization of the coordinate arithmetic, the
translation roundtrip `A.translated(v).translated(-v) == A` holds for every
AABB and vector; the binary64 float additions of the source do not satisfy
this in general (see the float-model theorems at the end). -/
theorem translated_roundtrip (A : AABB) (v : Vector2) :
    (A.translated v).translated (-v.1, -v.2) = A := by
  cases A with
  | mk mx my Mx My => simp [AABB.translated, XR.add_fin_add_neg]

/-- `b.follows a` implies `b` starts where `a` ends. -/
lemma follows_start {a b : FlattenedEdge} (h : b.follows a = true) :
    b.verts.1 = a.verts.2 := by
  unfold FlattenedEdge.follows at h
  exact (beq_iff_eq.mp ((Bool.and_eq_true _ _).mp h).2).symm

/-- On a linked edge list whose first edge starts at the previously yielded
point, the generator yields exactly the edge end points. -/
lemma iterPointsGo_linked :
    ∀ (es : List FlattenedEdge) (p : Vector2),
      List.Chain' (fun a b => b.verts.1 = a.verts.2) es →
      (∀ e ∈ es.head?, e.verts.1 = p) →
      iterPointsGo (some p) es = es.map (fun e => e.verts.2)
  | [], _, _, _ => rfl
  | e :: rest, p, hchain, hhead => by
    have h1 : e.verts.1 = p := hhead e rfl
    have h2 := List.chain'_cons'.mp hchain
    have ih := iterPointsGo_linked rest e.verts.2 h2.2 h2.1
    simp only [iterPointsGo, List.map_cons, h1, beq_self_eq_true, if_true, ih]

/-- On a linked nonempty edge list, the end points are the start points of
the tail followed by the last edge's end. -/
lemma map_snd_linked :
    ∀ (e0 : FlattenedEdge) (rest : List FlattenedEdge) (en : FlattenedEdge),
      List.Chain' (fun a b => b.verts.1 = a.verts.2) (e0 :: rest) →
      (e0 :: rest).getLast? = some en →
      (e0 :: rest).map (fun e => e.verts.2)
        = rest.map (fun e => e.verts.1) ++ [en.verts.2]
  | e0, [], en, _, hlast => by
    simp only [List.getLast?_singleton, Option.some.injEq] at hlast
    subst hlast; rfl
  | e0, f :: rs, en, hchain, hlast => by
    have h2 := List.chain'_cons'.mp hchain
    have hf : f.verts.1 = e0.verts.2 := h2.1 f rfl
    have ih := map_snd_linked f rs en h2.2 (by simpa using hlast)
    simp only [List.map_cons] at ih ⊢
    rw [ih, hf]
    rfl

/-- C4 (amended): on a single closed cycle, `is_closed` is true and
`iter_points` yields the `len(edges)` start points in order followed by a
repetition of the first point at the seam — `len(edges) + 1` yields in all;
when the start points are pairwise distinct, the number of distinct yielded
points is `len(edges)`. -/
theorem iter_points_on_cycle (m : FlattenedMesh) (e0 en : FlattenedEdge)
    (rest : List FlattenedEdge)
    (he : m.edges = e0 :: rest)
    (hchain : List.Chain' (fun a b => b.follows a = true) m.edges)
    (hlast : m.edges.getLast? = some en)
    (hclosed : en.verts.2 = e0.verts.1) :
    m.is_closed = true
    ∧ m.iter_points = m.edges.map (fun e => e.verts.1) ++ [e0.verts.1]
    ∧ m.iter_points.length = m.edges.length + 1
    ∧ ((m.edges.map (fun e => e.verts.1)).Nodup →
        m.iter_points.toFinset.card = m.edges.length) := by
  obtain ⟨es⟩ := m
  replace he : es = e0 :: rest := he
  subst he
  have hchain' : List.Chain' (fun a b => b.verts.1 = a.verts.2) (e0 :: rest) :=
    List.Chain'.imp (fun a b h => follows_start h) hchain
  have h2 := List.chain'_cons'.mp hchain'
  have hgo : iterPointsGo (some e0.verts.2) rest
      = rest.map (fun e => e.verts.2) :=
    iterPointsGo_linked rest e0.verts.2 h2.2 h2.1
  have hformula : FlattenedMesh.iter_points ⟨e0 :: rest⟩
      = (e0 :: rest).map (fun e => e.verts.1) ++ [e0.verts.1] := by
    have hsnd := map_snd_linked e0 rest en hchain' hlast
    simp only [FlattenedMesh.iter_points, iterPointsGo, hgo]
    simp only [List.map_cons] at hsnd ⊢
    rw [show ((some e0.verts.1 == (none : Option Vector2)) = false) from rfl]
    simp only [Bool.false_eq_true, if_false]
    rw [hsnd, hclosed]
    rfl
  have hclosed_mk : FlattenedMesh.is_closed ⟨e0 :: rest⟩ = true := by
    have hgl : (e0 :: rest).getLast (by simp) = en := by
      have := List.getLast?_eq_getLast_of_ne_nil
        (l := e0 :: rest) (by simp)
      rw [this] at hlast
      exact (Option.some.inj hlast)
    simp only [FlattenedMesh.is_closed, hgl, hclosed, beq_self_eq_true]
  have hiter : FlattenedMesh.iter_points (FlattenedMesh.mk (e0 :: rest))
      = (e0 :: rest).map (fun e => e.verts.1) ++ [e0.verts.1] := hformula
  refine ⟨hclosed_mk, hiter, ?_, ?_⟩
  · rw [hiter]; simp
  · intro hnodup
    rw [hiter]
    rw [List.toFinset_append]
    have hmem : e0.verts.1 ∈ ((e0 :: rest).map (fun e => e.verts.1)).toFinset := by
      simp
    rw [Finset.union_eq_left.mpr (by
      intro x hx
      simp only [List.toFinset_cons, List.toFinset_nil,
        insert_emptyc_eq, Finset.mem_singleton] at hx
      rw [hx]; exact hmem)]
    rw [List.toFinset_card_of_nodup hnodup]
    simp

/-- C4 (counterexample): on the closed unit square, `iter_points` yields 5
points for 4 edges, and the seam point `(0,0)` is yielded twice — the claimed
"exactly `len(edges)` distinct points, with no duplicate at the seam" fails. -/
theorem iter_points_seam_duplicate :
    sqMesh.is_closed = true
    ∧ sqMesh.edges.length = 4
    ∧ sqMesh.iter_points.length = 5
    ∧ sqMesh.iter_points.count ((0 : ℚ), (0 : ℚ)) = 2 := by
  decide

/-- C4 (witness): the cycle theorem applied to the unit square. -/
theorem iter_points_on_cycle_witness :
    sqMesh.iter_points.toFinset.card = 4 := by
  have h := iter_points_on_cycle sqMesh
    ⟨((0, 0), (1, 0)), .CUT⟩ ⟨((0, 1), (0, 0)), .CUT⟩
    [⟨((1, 0), (1, 1)), .CUT⟩, ⟨((1, 1), (0, 1)), .CUT⟩, ⟨((0, 1), (0, 0)), .CUT⟩]
    rfl (by simp [sqMesh, List.chain'_cons, FlattenedEdge.follows]) rfl rfl
  exact h.2.2.2 (by decide)

/-- Membership in a `chainLe` insertion comes from the new element or the
list. -/
lemma mem_insertChain {x a : ℕ × ℕ} :
    ∀ {l : List (ℕ × ℕ)}, x ∈ insertChain a l → x = a ∨ x ∈ l
  | [], h => by
    simp only [insertChain, List.mem_singleton] at h
    exact Or.inl h
  | b :: rest, h => by
    unfold insertChain at h
    by_cases hc : chainLe a b
    · simp only [hc, if_true, List.mem_cons] at h ⊢
      tauto
    · simp only [hc, Bool.false_eq_true, if_false, List.mem_cons] at h ⊢
      rcases h with h | h
      · exact Or.inr (Or.inl h)
      · rcases mem_insertChain h with h' | h'
        · exact Or.inl h'
        · exact Or.inr (Or.inr h')

/-- The sorted index list only permutes the enumerated chain list. -/
lemma mem_foldr_insertChain {x : ℕ × ℕ} :
    ∀ {l : List (ℕ × ℕ)}, x ∈ l.foldr insertChain [] → x ∈ l
  | [], h => by simp at h
  | b :: rest, h => by
    simp only [List.foldr_cons] at h
    rcases mem_insertChain h with h' | h'
    · simp [h']
    · exact List.mem_cons_of_mem b (mem_foldr_insertChain h')

/-- Pairs produced by `enumFrom` have in-range first components. -/
lemma enumFrom_fst_lt {α : Type} {p : ℕ × α} :
    ∀ (n : ℕ) (l : List α), p ∈ l.enumFrom n → p.1 < n + l.length
  | _, [], h => by simp at h
  | n, a :: rest, h => by
    simp only [List.enumFrom, List.mem_cons] at h
    rcases h with h | h
    · simp [h]
    · have := enumFrom_fst_lt (n + 1) rest h
      simp only [List.length_cons]
      omega

/-- Every entry of the sorted chain-index list is a valid chain index. -/
lemma sortChainsIdx_fst_lt (chains : List (List FlattenedEdge)) :
    ∀ p ∈ sortChainsIdx chains, p.1 < chains.length := by
  intro p hp
  have h1 := mem_foldr_insertChain hp
  simp only [List.mem_map] at h1
  obtain ⟨q, hq, rfl⟩ := h1
  have := enumFrom_fst_lt 0 chains hq
  simpa using this

/-- `pickChain` only returns valid chain indices. -/
lemma pickChain_lt {chains : List (List FlattenedEdge)} {e : FlattenedEdge}
    {i : ℕ} (h : pickChain chains e = some i) : i < chains.length := by
  unfold pickChain at h
  cases hf : (sortChainsIdx chains).find? (fun p =>
      match (chains.getD p.1 []).getLast? with
      | none => true
      | some last => e.follows last) with
  | none => rw [hf] at h; simp at h
  | some p =>
    rw [hf] at h
    simp at h
    subst h
    exact sortChainsIdx_fst_lt chains p (List.mem_of_find?_eq_some hf)

/-- Appending an element inside one chain only adds it to the flattened
edge multiset. -/
lemma join_set_perm :
    ∀ (cs : List (List FlattenedEdge)) (i : ℕ) (e : FlattenedEdge),
      i < cs.length →
      (cs.set i (cs.getD i [] ++ [e])).flatten.Perm (cs.flatten ++ [e])
  | [], i, e, h => by simp at h
  | c :: rest, 0, e, _ => by
    simp only [List.set_cons_zero, List.getD_cons_zero, List.flatten_cons,
      List.append_assoc]
    exact List.Perm.append_left c List.perm_append_comm
  | c :: rest, (i + 1), e, h => by
    simp only [List.set_cons_succ, List.getD_cons_succ, List.flatten_cons,
      List.append_assoc]
    exact List.Perm.append_left c
      (join_set_perm rest i e (by simpa using h))

/-- One `split` step adds exactly the new edge to the flattened chains. -/
lemma splitStep_join_perm (chains : List (List FlattenedEdge))
    (e : FlattenedEdge) :
    (splitStep chains e).flatten.Perm (chains.flatten ++ [e]) := by
  unfold splitStep
  cases hp : pickChain chains e with
  | some i => exact join_set_perm chains i e (pickChain_lt hp)
  | none => simp

/-- After a `splitStep` on one component, the flattened chains of that
component followed by a later suffix permute to the old chains with the new
edge inserted. -/
lemma splitStep_join_shift (chains : List (List FlattenedEdge))
    (e : FlattenedEdge) (suffix : List FlattenedEdge) :
    ((splitStep chains e).flatten ++ suffix).Perm
      (chains.flatten ++ e :: suffix) := by
  have h1 := (splitStep_join_perm chains e).append_right suffix
  refine h1.trans ?_
  rw [List.append_assoc]
  exact List.Perm.refl _

/-- Fold invariant of `split`: the flattened chains of each type are a
permutation of the initial state's flattened chains followed by the
processed edges of that type. -/
lemma split_fold_join (t : MeshType) :
    ∀ (es : List FlattenedEdge) (st : SplitResult),
      ((es.foldl splitFold st).get t).flatten.Perm
        ((st.get t).flatten ++ es.filter (fun e => e.edgeType == t))
  | [], st => by simp
  | e :: rest, st => by
    have ih := split_fold_join t rest (splitFold st e)
    simp only [List.foldl_cons, List.filter_cons]
    rcases ht : e.edgeType with _ | _ <;> rcases t with _ | _ <;>
      simp only [splitFold, ht, SplitResult.get,
        show ((MeshType.CUT == MeshType.CUT) = true) from rfl,
        show ((MeshType.ENGRAVE == MeshType.ENGRAVE) = true) from rfl,
        show ((MeshType.CUT == MeshType.ENGRAVE) = false) from rfl,
        show ((MeshType.ENGRAVE == MeshType.CUT) = false) from rfl,
        if_true, Bool.false_eq_true, if_false] at ih ⊢
    case CUT.CUT =>
      exact ih.trans (splitStep_join_shift st.cut e _)
    case CUT.ENGRAVE => exact ih
    case ENGRAVE.CUT => exact ih
    case ENGRAVE.ENGRAVE =>
      exact ih.trans (splitStep_join_shift st.engrave e _)

/-- C8 (amended): `split` partitions the edges — for each type, the chains
it produces contain, between them, exactly the edges of that type (as a
permutation); re-splitting a re-concatenation again yields such a partition
of the same edges, but not necessarily the same chain partition (see the
counterexample: chains can merge). -/
theorem split_preserves_edges (m : FlattenedMesh) (t : MeshType) :
    ((m.split.get t).flatten).Perm
      (m.edges.filter (fun e => e.edgeType == t)) := by
  have h := split_fold_join t m.edges ⟨[], []⟩
  rcases t with _ | _ <;>
    simpa [FlattenedMesh.split, SplitResult.get] using h

/-- C8 (counterexample): splitting `[a1C, f1C, a2C]` yields the two CUT
chains `[a1C, a2C]` and `[f1C]`, but splitting their re-concatenation
`[a1C, a2C, f1C]` yields the single chain `[a1C, a2C, f1C]` — the chain
partition is not preserved, because `f1C` follows the grown chain's last
edge `a2C`. -/
theorem split_not_idempotent :
    splitFixture.split.get .CUT = [[a1C, a2C], [f1C]]
    ∧ (FlattenedMesh.mk ((splitFixture.split.get .CUT).flatten)).split.get .CUT
        = [[a1C, a2C, f1C]] := by
  decide

set_option maxRecDepth 10000 in
/-- C2: the 1000×1000 flattened square with laser width 0, no padding, no
margin, 2000×2000 material and rotation disallowed packs to a single
micrometer rectangle `(page 0, x 0, y 0, 1000000, 1000000)` — i.e. position
`(0,0)` mm and size `(1000,1000)` mm, since `int_to_mm 1000000 = 1000` — and
the packed shape keeps rotation 0, gets translation `(0,0)` and page 0,
while the result reports one page and a covered area of 1 000 000. -/
theorem pack_unit_square :
    smartPackRects [unitShape] optsC2 = .ok [⟨0, 0, 0, 1000000, 1000000, 0⟩]
    ∧ int_to_mm 0 = 0
    ∧ int_to_mm 1000000 = 1000
    ∧ smartPack [unitShape] optsC2
        = .ok (⟨⟨XR.fin 0, XR.fin 0, XR.fin 1000, XR.fin 1000⟩, 1000000, 1⟩,
               [⟨"square", [(.CUT, [sq1000])], 0, (XR.fin 0, XR.fin 0), 0⟩]) := by
  decide

set_option maxRecDepth 10000 in
/-- C5 (counterexample): the 300×100 shape cannot fit the 150×250 usable
area in either orientation (it is 300 long, the page at most 250), so the
spec-modelled packer never places it: the rectangle list is empty, the
result is falsy, and the shape keeps rotation 0 — not the claimed
rotation 90. -/
theorem rotation_scenario_never_placed :
    smartPackRects [shape300] optsC5 = .ok []
    ∧ smartPack [shape300] optsC5 = .ok (⟨AABB.empty, 0, 1⟩, [shape300])
    ∧ shape300.rotation = 0 := by
  decide

set_option maxRecDepth 10000 in
/-- C5 (amended): when `transform_into` is handed a size whose orientation
differs from the shape's AABB — as a 90°-rotated placement of the 300×100
shape would produce, e.g. `(100, 300)` at position `(0,0)` — it sets
rotation 90 and shifts `translation.y` by the pre-rotation AABB width 300;
but the 300×100 shape cannot be placed in a 150×250 usable area at all. -/
theorem transform_into_rotates :
    shape300.transform_into (0, 0) (100, 300)
      = ⟨"r300", [(.CUT, [rect300])], 90, (XR.fin 0, XR.fin 300), 0⟩ := by
  decide

/-- Every sort heuristic maps the empty rectangle list to itself. -/
lemma sortAlgo_nil {s : String} {f : List RectIn → List RectIn}
    (h : sortAlgo s = some f) : f [] = [] := by
  unfold sortAlgo at h
  split_ifs at h <;> first
    | exact Option.noConfusion h
    | (injection h with h'; subst h'; rfl)

/-- Packing an empty shape list yields an empty rectangle list. -/
lemma smartPackRects_nil {options : Options} {f : List RectIn → List RectIn}
    (hf : sortAlgo options.pack_sort = some f) :
    smartPackRects [] options = .ok [] := by
  simp only [smartPackRects, hf]
  rw [show mm_to_int (XR.fin (options.material_width - 2 * options.margin))
      = .ok (pyInt ((options.material_width - 2 * options.margin) * 1000)) from rfl]
  rw [show mm_to_int (XR.fin (options.material_length - 2 * options.margin))
      = .ok (pyInt ((options.material_length - 2 * options.margin) * 1000)) from rfl]
  show Except.ok (packAll
      (pyInt ((options.material_width - 2 * options.margin) * 1000))
      (pyInt ((options.material_length - 2 * options.margin) * 1000))
      options.pack_may_rotate (f [])) = Except.ok []
  rw [sortAlgo_nil hf]
  rfl

/-- C3: packing an empty shape list succeeds with an empty (falsy) canvas,
and document assembly on that falsy result raises the no-shapes error — it
never reaches the document-building (file-producing) branch. -/
theorem pack_empty_no_shapes (options : Options)
    (hsort : (sortAlgo options.pack_sort).isSome = true) :
    smartPack [] options = .ok (⟨AABB.empty, 0, 1⟩, [])
    ∧ (PackResult.mk AABB.empty 0 1).toBool = false
    ∧ write [] options = .error .noShapes := by
  obtain ⟨f, hf⟩ := Option.isSome_iff_exists.mp hsort
  have h1 : smartPack [] options = .ok (⟨AABB.empty, 0, 1⟩, []) := by
    simp only [smartPack, smartPackRects_nil hf]
    rfl
  refine ⟨h1, rfl, ?_⟩
  simp only [write, h1]
  rfl

/-- C3 (witness): the no-shapes theorem at concrete options. -/
theorem pack_empty_no_shapes_witness :
    write [] optsC3 = .error .noShapes :=
  (pack_empty_no_shapes optsC3 (by decide)).2.2

/-- C10: every successful pack result reports at least one page, and when
the packer places no rectangle the result reports exactly one page while
being falsy (empty canvas bounds). -/
theorem num_pages_at_least_one (shapes : List MeshBoundary) (options : Options)
    (r : PackResult) (shapes' : List MeshBoundary)
    (h : smartPack shapes options = .ok (r, shapes')) :
    1 ≤ r.num_pages
    ∧ (smartPackRects shapes options = .ok [] →
        r.num_pages = 1 ∧ r.toBool = false) := by
  unfold smartPack at h
  cases hr : smartPackRects shapes options with
  | error e => rw [hr] at h; exact absurd h (by simp)
  | ok rects =>
    rw [hr] at h
    simp only [Except.ok.injEq, Prod.mk.injEq] at h
    obtain ⟨hr1, hr2⟩ := h
    constructor
    · rw [← hr1]
      exact Nat.succ_le_succ (Nat.zero_le _)
    · intro hnil
      simp only [Except.ok.injEq] at hnil
      subst hnil
      exact ⟨by rw [← hr1]; rfl, by rw [← hr1]; rfl⟩

/-- C10 (witness): the page-count theorem at the empty shape list. -/
theorem num_pages_at_least_one_witness :
    1 ≤ (PackResult.mk AABB.empty 0 1).num_pages
    ∧ (smartPackRects [] optsC10 = .ok [] →
        (PackResult.mk AABB.empty 0 1).num_pages = 1
        ∧ (PackResult.mk AABB.empty 0 1).toBool = false) :=
  num_pages_at_least_one [] optsC10 ⟨AABB.empty, 0, 1⟩ [] (by decide)

/-- `int()` of an integer-valued rational is that integer. -/
lemma pyInt_intCast (z : ℤ) : pyInt (z : ℚ) = z := by
  unfold pyInt
  by_cases hz : (z : ℚ) < 0
  · rw [if_pos hz]
    rw [show -(z : ℚ) = ((-z : ℤ) : ℚ) by push_cast; ring]
    rw [Int.floor_intCast]
    ring
  · rw [if_neg hz, Int.floor_intCast]

/-- Millimeter-to-micrometer conversion of a finite value. -/
lemma mm_to_int_fin (q : ℚ) :
    mm_to_int (XR.fin q) = .ok (pyInt (q * 1000)) := rfl

/-- The conversion succeeds exactly on finite inputs. -/
lemma mm_to_int_isFin_iff (x : XR) :
    (∃ n, mm_to_int x = .ok n) ↔ ∃ a, x = XR.fin a := by
  cases x <;> simp [mm_to_int, XR.ltb, XR.toQ]

/-- The conversion fails (with the finiteness error) exactly on non-finite
inputs. -/
lemma mm_to_int_error_iff (x : XR) :
    mm_to_int x = .error .sizesMustBeFinite ↔ x.isFin = false := by
  cases x <;> simp [mm_to_int, XR.ltb, XR.isFin]

/-- The conversion's only error is the finiteness error. -/
lemma mm_to_int_error_only {x : XR} {e : PackError}
    (h : mm_to_int x = .error e) : e = .sizesMustBeFinite := by
  cases x <;> simp [mm_to_int, XR.ltb] at h <;> exact h.symm

/-- Micrometers back to millimeters and to micrometers again is the
identity. -/
lemma mm_roundtrip (z : ℤ) : mm_to_int (XR.fin (int_to_mm z)) = .ok z := by
  rw [mm_to_int_fin]
  unfold int_to_mm
  rw [div_mul_cancel₀]
  · rw [pyInt_intCast]
  · norm_num

/-- The `add_rect` loop fails with the finiteness error exactly when some
shape's padded width or height is non-finite. -/
lemma collectRectsGo_error_iff (options : Options) :
    ∀ (idx : ℕ) (shapes : List MeshBoundary),
      (collectRectsGo options idx shapes = .error .sizesMustBeFinite) ↔
      ∃ s ∈ shapes,
        ((s.aabb.width.add (XR.fin (2 * options.shape_padding))).isFin = false
         ∨ (s.aabb.height.add (XR.fin (2 * options.shape_padding))).isFin = false)
  | _, [] => by simp [collectRectsGo]
  | idx, shape :: rest => by
    unfold collectRectsGo
    cases hW : mm_to_int (shape.aabb.width.add (XR.fin (2 * options.shape_padding))) with
    | error e =>
      have he := mm_to_int_error_only hW
      subst he
      have hwit : ∃ s ∈ shape :: rest,
          ((s.aabb.width.add (XR.fin (2 * options.shape_padding))).isFin = false
           ∨ (s.aabb.height.add (XR.fin (2 * options.shape_padding))).isFin = false) :=
        ⟨shape, List.mem_cons_self shape rest,
         Or.inl ((mm_to_int_error_iff _).mp hW)⟩
      cases hH : mm_to_int (shape.aabb.height.add (XR.fin (2 * options.shape_padding))) with
      | error e2 => exact iff_of_true rfl hwit
      | ok hi => exact iff_of_true rfl hwit
    | ok wi =>
      have hWf : (shape.aabb.width.add (XR.fin (2 * options.shape_padding))).isFin = true := by
        rcases (mm_to_int_isFin_iff _).mp ⟨wi, hW⟩ with ⟨a, ha⟩
        rw [ha]; rfl
      cases hH : mm_to_int (shape.aabb.height.add (XR.fin (2 * options.shape_padding))) with
      | error e =>
        have he := mm_to_int_error_only hH
        subst he
        exact iff_of_true rfl
          ⟨shape, List.mem_cons_self shape rest,
           Or.inr ((mm_to_int_error_iff _).mp hH)⟩
      | ok hi =>
        have hHf : (shape.aabb.height.add (XR.fin (2 * options.shape_padding))).isFin = true := by
          rcases (mm_to_int_isFin_iff _).mp ⟨hi, hH⟩ with ⟨a, ha⟩
          rw [ha]; rfl
        have ih := collectRectsGo_error_iff options (idx + 1) rest
        have hnohead : ∀ hh : ∃ s ∈ shape :: rest,
            ((s.aabb.width.add (XR.fin (2 * options.shape_padding))).isFin = false
             ∨ (s.aabb.height.add (XR.fin (2 * options.shape_padding))).isFin = false),
            ∃ s ∈ rest,
              ((s.aabb.width.add (XR.fin (2 * options.shape_padding))).isFin = false
               ∨ (s.aabb.height.add (XR.fin (2 * options.shape_padding))).isFin = false) := by
          rintro ⟨s, hs, hdim⟩
          rcases List.mem_cons.mp hs with hs' | hs'
          · subst hs'
            rcases hdim with hdim | hdim
            · rw [hWf] at hdim; exact absurd hdim (by simp)
            · rw [hHf] at hdim; exact absurd hdim (by simp)
          · exact ⟨s, hs', hdim⟩
        cases hrec : collectRectsGo options (idx + 1) rest with
        | error e =>
          cases e with
          | unknownSort nm =>
            refine iff_of_false (by simp) ?_
            intro hh
            have := ih.mpr (hnohead hh)
            rw [hrec] at this
            exact absurd this (by simp)
          | sizesMustBeFinite =>
            refine iff_of_true rfl ?_
            rcases ih.mp hrec with ⟨s, hs, hdim⟩
            exact ⟨s, List.mem_cons_of_mem shape hs, hdim⟩
        | ok rs =>
          refine iff_of_false (by simp) ?_
          intro hh
          have := ih.mpr (hnohead hh)
          rw [hrec] at this
          exact absurd this (by simp)

/-- Packing (with a known sort heuristic) fails with the finiteness error
exactly when some shape's padded dimension is non-finite; the page's usable
size, a difference of finite configuration values, always converts. -/
lemma smartPackRects_error_iff (shapes : List MeshBoundary) (options : Options)
    {f : List RectIn → List RectIn}
    (hf : sortAlgo options.pack_sort = some f) :
    (smartPackRects shapes options = .error .sizesMustBeFinite) ↔
    ∃ s ∈ shapes,
      ((s.aabb.width.add (XR.fin (2 * options.shape_padding))).isFin = false
       ∨ (s.aabb.height.add (XR.fin (2 * options.shape_padding))).isFin = false) := by
  simp only [smartPackRects, hf]
  rw [show mm_to_int (XR.fin (options.material_width - 2 * options.margin))
      = .ok (pyInt ((options.material_width - 2 * options.margin) * 1000)) from rfl]
  rw [show mm_to_int (XR.fin (options.material_length - 2 * options.margin))
      = .ok (pyInt ((options.material_length - 2 * options.margin) * 1000)) from rfl]
  have hiff := collectRectsGo_error_iff options 0 shapes
  cases hc : collectRects shapes options with
  | error e =>
    have hc' : collectRectsGo options 0 shapes = .error e := hc
    rw [hc'] at hiff
    cases e with
    | unknownSort nm =>
      refine iff_of_false (by simp) ?_
      intro hh
      exact absurd (hiff.mpr hh) (by simp)
    | sizesMustBeFinite =>
      exact iff_of_true rfl (hiff.mp rfl)
  | ok rects =>
    have hc' : collectRectsGo options 0 shapes = .ok rects := hc
    rw [hc'] at hiff
    refine iff_of_false (by simp) ?_
    intro hh
    exact absurd (hiff.mpr hh) (by simp)

/-- C7: shape dimensions go to the packer as truncated integer micrometers
(`mm * 1000`) and come back as millimeters, with the micrometer round trip
exact; the conversion succeeds exactly on finite inputs, and packing fails
with the finiteness error exactly when some shape's padded width or height
is non-finite (the page's usable size is a difference of finite
configuration values and always converts). -/
theorem finite_conversion (x : XR) (q : ℚ) (z : ℤ)
    (shapes : List MeshBoundary) (options : Options)
    (hsort : (sortAlgo options.pack_sort).isSome = true) :
    ((∃ n, mm_to_int x = .ok n) ↔ ∃ a, x = XR.fin a)
    ∧ mm_to_int (XR.fin q) = .ok (pyInt (q * 1000))
    ∧ mm_to_int (XR.fin (int_to_mm z)) = .ok z
    ∧ ((smartPackRects shapes options = .error .sizesMustBeFinite) ↔
        ∃ s ∈ shapes,
          ((s.aabb.width.add (XR.fin (2 * options.shape_padding))).isFin = false
           ∨ (s.aabb.height.add (XR.fin (2 * options.shape_padding))).isFin = false)) := by
  obtain ⟨f, hf⟩ := Option.isSome_iff_exists.mp hsort
  exact ⟨mm_to_int_isFin_iff x, mm_to_int_fin q, mm_roundtrip z,
    smartPackRects_error_iff shapes options hf⟩

/-- C7 (witness): the conversion theorem applied at `+∞`, `5` mm, `7` µm
and a shape whose empty AABB gives a non-finite padded width. -/
theorem finite_conversion_witness :
    mm_to_int (XR.fin 5) = .ok (pyInt (5 * 1000))
    ∧ mm_to_int (XR.fin (int_to_mm 7)) = .ok 7
    ∧ smartPackRects [emptyShape7] optsC7 = .error .sizesMustBeFinite := by
  have h := finite_conversion XR.pinf 5 7 [emptyShape7] optsC7 (by decide)
  refine ⟨h.2.1, h.2.2.1, h.2.2.2.mpr ?_⟩
  exact ⟨emptyShape7, List.mem_cons_self _ _, Or.inl (by decide)⟩

/-! ### Kerf pass: vector and association-list lemmas -/

/-- Adding the zero vector on the right changes nothing. -/
lemma add3_zero3 (v : Vec3) : add3 v zero3 = v := by
  simp [add3, zero3]

/-- Adding the zero vector on the left changes nothing. -/
lemma zero3_add3 (v : Vec3) : add3 zero3 v = v := by
  simp [add3, zero3]

/-- Componentwise addition is associative. -/
lemma add3_assoc (a b c : Vec3) :
    add3 (add3 a b) c = add3 a (add3 b c) := by
  simp only [add3]
  refine Prod.ext (by ring) (Prod.ext (by ring) (by ring))

/-- Clamping the zero vector gives the zero vector. -/
lemma clampVec_zero3 : clampVec zero3 = zero3 := by
  simp only [clampVec, zero3]
  norm_num

/-- Scaling the zero vector gives the zero vector. -/
lemma smul3_zero3 (c : ℝ) : smul3 c zero3 = zero3 := by
  simp [smul3, zero3]

/-- Accumulated direction of a vertex key (zero when absent, as a fresh
`defaultdict` entry). -/
noncomputable def alGet (d : List (ℕ × Vec3)) (k : ℕ) : Vec3 :=
  match d with
  | [] => zero3
  | (k', s) :: rest => if k' = k then s else alGet rest k

/-- Keys of a vertex-direction dictionary. -/
noncomputable def alKeys (d : List (ℕ × Vec3)) : List ℕ := d.map Prod.fst

/-- Reading after an `alAdd`. -/
lemma alGet_alAdd (d : List (ℕ × Vec3)) (k k' : ℕ) (t : Vec3) :
    alGet (alAdd d k t) k'
      = if k' = k then add3 (alGet d k') t else alGet d k' := by
  induction d with
  | nil =>
    by_cases h : k' = k
    · subst h; simp [alAdd, alGet, zero3_add3]
    · simp [alAdd, alGet, h, Ne.symm h]
  | cons p rest ih =>
    obtain ⟨k0, s⟩ := p
    by_cases h0 : k0 = k
    · subst h0
      by_cases h1 : k' = k0
      · subst h1; simp [alAdd, alGet]
      · simp [alAdd, alGet, h1, Ne.symm h1]
    · by_cases h1 : k0 = k'
      · subst h1
        simp [alAdd, alGet, h0]
      · simp [alAdd, alGet, h0, h1, ih]

/-- Membership in the keys after an `alAdd`. -/
lemma alKeys_alAdd_mem (d : List (ℕ × Vec3)) (k j : ℕ) (t : Vec3) :
    j ∈ alKeys (alAdd d k t) ↔ j ∈ alKeys d ∨ j = k := by
  induction d with
  | nil => simp [alAdd, alKeys]
  | cons p rest ih =>
    obtain ⟨k0, s⟩ := p
    by_cases h0 : k0 = k
    · subst h0; simp [alAdd, alKeys]
      tauto
    · simp only [alAdd, h0, if_false, alKeys, List.map_cons, List.mem_cons] at ih ⊢
      rw [ih]
      tauto

/-- `alAdd` preserves distinctness of keys. -/
lemma alKeys_alAdd_nodup (d : List (ℕ × Vec3)) (k : ℕ) (t : Vec3)
    (h : (alKeys d).Nodup) : (alKeys (alAdd d k t)).Nodup := by
  induction d with
  | nil => simp [alAdd, alKeys]
  | cons p rest ih =>
    obtain ⟨k0, s⟩ := p
    simp only [alKeys, List.map_cons, List.nodup_cons] at h
    by_cases h0 : k0 = k
    · subst h0
      simp only [alAdd, if_true, alKeys, List.map_cons, List.nodup_cons]
      exact ⟨h.1, h.2⟩
    · simp only [alAdd, h0, if_false, alKeys, List.map_cons, List.nodup_cons]
      constructor
      · intro hmem
        rcases (alKeys_alAdd_mem rest k k0 t).mp hmem with hm | hm
        · exact h.1 hm
        · exact h0 hm
      · exact ih h.2

/-- A key absent from the dictionary reads as zero. -/
lemma alGet_of_not_mem (d : List (ℕ × Vec3)) (j : ℕ)
    (h : j ∉ alKeys d) : alGet d j = zero3 := by
  induction d with
  | nil => rfl
  | cons p rest ih =>
    obtain ⟨k0, s⟩ := p
    simp only [alKeys, List.map_cons, List.mem_cons] at h
    push_neg at h
    simp only [alGet, if_neg (fun hh : k0 = j => h.1 hh.symm)]
    exact ih (by simpa [alKeys] using h.2)

/-- First-match list of tangents of an edge key in the `edge_kerfs`
dictionary. -/
noncomputable def alGetG (d : List (ℕ × List Vec3)) (k : ℕ) : List Vec3 :=
  match d with
  | [] => []
  | (k', ts) :: rest => if k' = k then ts else alGetG rest k

/-- Keys of an `edge_kerfs` dictionary. -/
noncomputable def alKeysG (d : List (ℕ × List Vec3)) : List ℕ := d.map Prod.fst

/-- Reading after an `alAppend`. -/
lemma alGetG_alAppend (d : List (ℕ × List Vec3)) (k k' : ℕ) (t : Vec3) :
    alGetG (alAppend d k t) k'
      = if k' = k then alGetG d k' ++ [t] else alGetG d k' := by
  induction d with
  | nil =>
    by_cases h : k' = k
    · subst h; simp [alAppend, alGetG]
    · simp [alAppend, alGetG, h, Ne.symm h]
  | cons p rest ih =>
    obtain ⟨k0, s⟩ := p
    by_cases h0 : k0 = k
    · subst h0
      by_cases h1 : k' = k0
      · subst h1; simp [alAppend, alGetG]
      · simp [alAppend, alGetG, h1, Ne.symm h1]
    · by_cases h1 : k0 = k'
      · subst h1
        simp [alAppend, alGetG, h0]
      · simp [alAppend, alGetG, h0, h1, ih]

/-- `alAppend` on a fresh key appends a singleton entry. -/
lemma alAppend_fresh (d : List (ℕ × List Vec3)) (k : ℕ) (t : Vec3)
    (h : k ∉ alKeysG d) : alAppend d k t = d ++ [(k, [t])] := by
  induction d with
  | nil => rfl
  | cons p rest ih =>
    obtain ⟨k0, s⟩ := p
    simp only [alKeysG, List.map_cons, List.mem_cons] at h
    push_neg at h
    simp only [alAppend, if_neg (fun hh : k0 = k => h.1 hh.symm),
      List.cons_append, List.cons.injEq, true_and]
    exact ih (by simpa [alKeysG] using h.2)

/-- Tangent count per key after grouping: every key of the `edge_kerfs`
dictionary carries as many tangents as it occurs in the collected pairs. -/
lemma alGetG_fold_count (k : ℕ) :
    ∀ (pairs : List (ℕ × Vec3)) (acc : List (ℕ × List Vec3)),
      (alGetG (pairs.foldl (fun d p => alAppend d p.1 p.2) acc) k).length
        = (alGetG acc k).length + (pairs.map Prod.fst).count k
  | [], acc => by simp
  | p :: rest, acc => by
    have ih := alGetG_fold_count k rest (alAppend acc p.1 p.2)
    simp only [List.foldl_cons, List.map_cons] at ih ⊢
    rw [ih, alGetG_alAppend]
    by_cases h : k = p.1
    · subst h
      simp [List.count_cons]
      omega
    · simp [List.count_cons, h, fun hh : p.1 = k => h hh.symm]

/-- Grouping pairwise-distinct keys produces singleton groups, in order. -/
lemma groupKerfs_of_nodup :
    ∀ (pairs : List (ℕ × Vec3)) (acc : List (ℕ × List Vec3)),
      ((alKeysG acc ++ pairs.map Prod.fst)).Nodup →
      pairs.foldl (fun d p => alAppend d p.1 p.2) acc
        = acc ++ pairs.map (fun p => (p.1, [p.2]))
  | [], acc, _ => by simp
  | p :: rest, acc, h => by
    simp only [List.map_cons] at h
    have hk : p.1 ∉ alKeysG acc := by
      intro hmem
      have := List.Nodup.not_mem (l := alKeysG acc) (a := p.1)
      rcases List.nodup_append.mp h with ⟨_, _, hdisj⟩
      exact hdisj hmem (by simp)
    have happ := alAppend_fresh acc p.1 p.2 hk
    have h2 : ((alKeysG (alAppend acc p.1 p.2) ++ rest.map Prod.fst)).Nodup := by
      rw [happ]
      simp only [alKeysG, List.map_append, List.map_cons, List.map_nil] at h ⊢
      simpa [List.append_assoc] using h
    have ih := groupKerfs_of_nodup rest (alAppend acc p.1 p.2) h2
    simp only [List.foldl_cons, List.map_cons]
    rw [ih, happ]
    simp

/-- A successful second pass means every edge group is a singleton. -/
lemma vtxDirsGo_ok_singletons (bm : BMesh) :
    ∀ (gs : List (ℕ × List Vec3)) (d D : List (ℕ × Vec3)),
      vtxDirsGo bm d gs = .ok D → ∀ g ∈ gs, ∃ t, g.2 = [t]
  | [], _, _, _ => by simp
  | (eidx, kerfs) :: rest, d, D, h => by
    intro g hg
    match hk : kerfs with
    | [t] =>
      simp only [vtxDirsGo] at h
      rcases List.mem_cons.mp hg with hg' | hg'
      · subst hg'; exact ⟨t, rfl⟩
      · cases he : bm.edges.get? eidx with
        | none => rw [he] at h; exact absurd h (by simp)
        | some e =>
          rw [he] at h
          exact vtxDirsGo_ok_singletons bm rest _ D h g hg'
    | [] => exact absurd h (by simp [vtxDirsGo])
    | t1 :: t2 :: ts => exact absurd h (by simp [vtxDirsGo])

/-- A nonempty first-match value betrays a dictionary entry. -/
lemma alGetG_mem (d : List (ℕ × List Vec3)) (k : ℕ)
    (h : alGetG d k ≠ []) : (k, alGetG d k) ∈ d := by
  induction d with
  | nil => exact absurd rfl h
  | cons p rest ih =>
    obtain ⟨k0, s⟩ := p
    by_cases h0 : k0 = k
    · subst h0
      simp only [alGetG, if_true] at h ⊢
      simp
    · simp only [alGetG, h0, if_false] at h ⊢
      exact List.mem_cons_of_mem _ (ih h)

/-- Incident-tangent sum of a vertex over a collected `(edge, tangent)`
list. -/
noncomputable def incSum (bm : BMesh) : List (ℕ × Vec3) → ℕ → Vec3
  | [], _ => zero3
  | p :: rest, k =>
    if edgeIncident bm p.1 k then add3 p.2 (incSum bm rest k)
    else incSum bm rest k

/-- Second pass on singleton groups with resolvable distinct-endpoint edges:
it succeeds, and each vertex accumulates exactly the sum of the tangents of
its incident collected edges.  The key set stays within the initial keys and
the edges' endpoints, and stays distinct. -/
lemma vtxDirsGo_char (bm : BMesh) :
    ∀ (pairs : List (ℕ × Vec3)) (d : List (ℕ × Vec3)),
      (∀ p ∈ pairs, ∃ e, bm.edges.get? p.1 = some e ∧ e.v1 ≠ e.v2) →
      ∃ D, vtxDirsGo bm d (pairs.map (fun p => (p.1, [p.2]))) = .ok D
        ∧ (∀ k, alGet D k = add3 (alGet d k) (incSum bm pairs k))
        ∧ (∀ j ∈ alKeys D, j ∈ alKeys d ∨
            ∃ p ∈ pairs, ∃ e, bm.edges.get? p.1 = some e ∧ (j = e.v1 ∨ j = e.v2))
        ∧ ((alKeys d).Nodup → (alKeys D).Nodup)
  | [], d, _ =>
    ⟨d, rfl, fun k => by simp [incSum, add3_zero3],
     fun j hj => Or.inl hj, fun h => h⟩
  | p :: rest, d, hcond => by
    obtain ⟨e, he, hne⟩ := hcond p (List.mem_cons_self p rest)
    have hcond' : ∀ q ∈ rest, ∃ e, bm.edges.get? q.1 = some e ∧ e.v1 ≠ e.v2 :=
      fun q hq => hcond q (List.mem_cons_of_mem p hq)
    obtain ⟨D, hD, hsum, hkeys, hnodup⟩ :=
      vtxDirsGo_char bm rest (alAdd (alAdd d e.v1 p.2) e.v2 p.2) hcond'
    have hinc : edgeIncident bm p.1 = fun k => ((e.v1 == k) || (e.v2 == k)) := by
      funext k
      unfold edgeIncident
      rw [he]
    refine ⟨D, ?_, ?_, ?_, ?_⟩
    · simp only [List.map_cons, vtxDirsGo, he]
      exact hD
    · intro k
      rw [hsum k, alGet_alAdd, alGet_alAdd]
      by_cases h1 : k = e.v1
      · subst h1
        rw [if_neg hne, if_pos rfl]
        simp only [incSum, hinc, beq_self_eq_true, Bool.true_or, if_true]
        exact add3_assoc _ _ _
      · by_cases h2 : k = e.v2
        · subst h2
          rw [if_pos rfl, if_neg (fun hh : e.v2 = e.v1 => hne hh.symm)]
          simp only [incSum, hinc, beq_self_eq_true, Bool.or_true, if_true]
          exact add3_assoc _ _ _
        · have hincf : ((e.v1 == k) || (e.v2 == k)) = false := by
            simp only [Bool.or_eq_false_iff, beq_eq_false_iff_ne]
            exact ⟨fun hh => h1 hh.symm, fun hh => h2 hh.symm⟩
          rw [if_neg h2, if_neg (fun hh : k = e.v1 => h1 hh)]
          simp only [incSum, hinc, hincf, Bool.false_eq_true, if_false]
    · intro j hj
      rcases hkeys j hj with hin | hin
      · rcases (alKeys_alAdd_mem _ _ _ _).mp hin with hin2 | hin2
        · rcases (alKeys_alAdd_mem _ _ _ _).mp hin2 with hin3 | hin3
          · exact Or.inl hin3
          · exact Or.inr ⟨p, List.mem_cons_self p rest, e, he, Or.inl hin3⟩
        · exact Or.inr ⟨p, List.mem_cons_self p rest, e, he, Or.inr hin2⟩
      · obtain ⟨q, hq, e', he', hjq⟩ := hin
        exact Or.inr ⟨q, List.mem_cons_of_mem p hq, e', he', hjq⟩
    · intro hd
      exact hnodup (alKeys_alAdd_nodup _ _ _ (alKeys_alAdd_nodup _ _ _ hd))

/-- Third pass on a dictionary with distinct in-range keys: it succeeds and
each vertex's position gains `kerf_width * clamp(direction)`, the direction
of an untouched vertex being zero. -/
lemma dispVertsGo_char (kw : ℝ) :
    ∀ (dirs : List (ℕ × Vec3)) (verts : List BMVert),
      (alKeys dirs).Nodup →
      (∀ j ∈ alKeys dirs, j < verts.length) →
      ∃ out, dispVertsGo kw verts dirs = .ok out
        ∧ out.length = verts.length
        ∧ ∀ i, i < verts.length →
            (out.getD i dummyVert).co
              = add3 ((verts.getD i dummyVert).co)
                  (smul3 kw (clampVec (alGet dirs i)))
  | [], verts, _, _ =>
    ⟨verts, rfl, rfl, fun i _ => by
      simp [alGet, clampVec_zero3, smul3_zero3, add3_zero3]⟩
  | (vi, dir) :: rest, verts, hnodup, hrange => by
    have hvi : vi < verts.length := hrange vi (by simp [alKeys])
    have hv : verts[vi]? = some verts[vi] := List.getElem?_eq_getElem hvi
    simp only [alKeys, List.map_cons, List.nodup_cons] at hnodup
    have hrange' : ∀ j ∈ alKeys rest, j < (verts.set vi
        ⟨add3 verts[vi].co (smul3 kw (clampVec dir)), verts[vi].is_boundary,
         verts[vi].link_loops⟩).length := by
      intro j hj
      rw [List.length_set]
      exact hrange j (by
        simp only [alKeys, List.map_cons, List.mem_cons]
        exact Or.inr hj)
    obtain ⟨out, hout, hlen, hco⟩ := dispVertsGo_char kw rest _ hnodup.2 hrange'
    refine ⟨out, ?_, by rwa [List.length_set] at hlen, ?_⟩
    · simp only [dispVertsGo, List.get?_eq_getElem?, hv]
      exact hout
    · intro i hi
      have hco' := hco i (by rwa [List.length_set])
      rw [hco']
      by_cases hii : i = vi
      · subst hii
        have hset : (verts.set i
            ⟨add3 verts[i].co (smul3 kw (clampVec dir)), verts[i].is_boundary,
             verts[i].link_loops⟩).getD i dummyVert
            = ⟨add3 verts[i].co (smul3 kw (clampVec dir)), verts[i].is_boundary,
               verts[i].link_loops⟩ := by
          simp [List.getD_eq_getElem?_getD, List.getElem?_set_self hi]
        rw [hset]
        have hrest : alGet rest i = zero3 := alGet_of_not_mem rest i hnodup.1
        have hcons : alGet ((i, dir) :: rest) i = dir := by simp [alGet]
        rw [hrest, hcons]
        simp only [clampVec_zero3, smul3_zero3, add3_zero3]
        have : (verts.getD i dummyVert).co = verts[i].co := by
          simp [List.getD_eq_getElem?_getD, List.getElem?_eq_getElem hi]
        rw [this]
      · have hset : (verts.set vi
            ⟨add3 verts[vi].co (smul3 kw (clampVec dir)), verts[vi].is_boundary,
             verts[vi].link_loops⟩).getD i dummyVert
            = verts.getD i dummyVert := by
          simp [List.getD_eq_getElem?_getD,
            List.getElem?_set_ne (fun hh : vi = i => hii hh.symm)]
        rw [hset]
        have hcons : alGet ((vi, dir) :: rest) i = alGet rest i := by
          simp only [alGet]
          rw [if_neg (fun hh : vi = i => hii hh.symm)]
        rw [hcons]

/-- Well-formedness of one loop at one vertex: its edge exists, is incident
to the vertex, and has in-range endpoints. -/
def LoopCond (bm : BMesh) (i : ℕ) (l : BMLoop) : Prop :=
  ∃ e, bm.edges.get? l.edge = some e ∧ (e.v1 = i ∨ e.v2 = i)
    ∧ e.v1 < bm.verts.length ∧ e.v2 < bm.verts.length

/-- A qualifying loop's collection step computes the loop tangent from the
mesh positions and either rejects it or records it. -/
lemma collectLoop_qual (bm : BMesh) (name : String) (i : ℕ) (v : BMVert)
    (l : BMLoop) (hv : bm.verts.get? i = some v)
    (hcond : LoopCond bm i l) (hq : edgeQualifies bm l = true) :
    collectLoop bm name i v l
      = if |vlen (loopTangent bm i l) - 1| > kerfTol
        then .error (.tangentNotUnit name (loopTangent bm i l))
        else .ok (some (l.edge, loopTangent bm i l)) := by
  obtain ⟨e, he, hinc, hr1, hr2⟩ := hcond
  unfold edgeQualifies at hq
  rw [he] at hq
  rw [Bool.and_eq_true, Bool.not_eq_true', Bool.not_eq_true'] at hq
  simp only [collectLoop, he, hq.1, hq.2, Bool.false_eq_true, if_false]
  have hedge : bm.edges.getD l.edge dummyEdge = e := by
    rw [List.getD_eq_getElem?_getD, ← List.get?_eq_getElem?, he]
    rfl
  have hvert : bm.verts.getD i dummyVert = v := by
    rw [List.getD_eq_getElem?_getD, ← List.get?_eq_getElem?, hv]
    rfl
  by_cases hv1 : e.v1 = i
  · have hov : otherVertIdx e i = some e.v2 := by
      unfold otherVertIdx
      rw [if_pos hv1]
    have hvo : bm.verts.get? e.v2 = some (bm.verts.getD e.v2 dummyVert) := by
      rw [List.get?_eq_getElem?, List.getElem?_eq_getElem hr2,
        List.getD_eq_getElem?_getD, List.getElem?_eq_getElem hr2]
      rfl
    simp only [hov, hvo]
    have htan : loopTangent bm i l
        = vnormalized (cross3
            (vnormalized (sub3 (bm.verts.getD e.v2 dummyVert).co v.co))
            l.face_normal) := by
      simp only [loopTangent, hedge, hov, hvert, Option.getD_some]
    rw [htan]
  · have hv2 : e.v2 = i := hinc.resolve_left hv1
    have hov : otherVertIdx e i = some e.v1 := by
      unfold otherVertIdx
      rw [if_neg hv1, if_pos hv2]
    have hvo : bm.verts.get? e.v1 = some (bm.verts.getD e.v1 dummyVert) := by
      rw [List.get?_eq_getElem?, List.getElem?_eq_getElem hr1,
        List.getD_eq_getElem?_getD, List.getElem?_eq_getElem hr1]
      rfl
    simp only [hov, hvo]
    have htan : loopTangent bm i l
        = vnormalized (cross3
            (vnormalized (sub3 (bm.verts.getD e.v1 dummyVert).co v.co))
            l.face_normal) := by
      simp only [loopTangent, hedge, hov, hvert, Option.getD_some]
    rw [htan]

/-- A non-qualifying loop whose edge exists is skipped. -/
lemma collectLoop_nonqual (bm : BMesh) (name : String) (i : ℕ) (v : BMVert)
    (l : BMLoop) (e : BMEdge) (he : bm.edges.get? l.edge = some e)
    (hq : edgeQualifies bm l = false) :
    collectLoop bm name i v l = .ok none := by
  simp only [edgeQualifies, he] at hq
  rw [List.get?_eq_getElem?] at he
  rcases Bool.and_eq_false_iff.mp hq with hm | hs
  · rw [Bool.not_eq_false'] at hm
    have hm' : e.is_manifold = true ∨ e.is_wire = true := by simpa using hm
    rcases hm' with h1 | h1 <;>
      simp [collectLoop, he, h1]
  · rw [Bool.not_eq_false'] at hs
    by_cases h1 : e.is_manifold = true
    · simp [collectLoop, he, h1]
    · by_cases h2 : e.is_wire = true
      · simp [collectLoop, he, h2]
      · simp only [Bool.not_eq_true] at h1 h2
        simp [collectLoop, he, h1, h2, hs]

/-- First pass over one vertex's loops when every qualifying tangent passes
the length check: the qualifying loops are recorded in order. -/
lemma collectLoops_char (bm : BMesh) (name : String) (i : ℕ) (v : BMVert)
    (hv : bm.verts.get? i = some v) :
    ∀ ls : List BMLoop,
      (∀ l ∈ ls, LoopCond bm i l) →
      (∀ l ∈ ls, edgeQualifies bm l = true →
        ¬(|vlen (loopTangent bm i l) - 1| > kerfTol)) →
      collectLoops bm name i v ls
        = .ok ((ls.filter (edgeQualifies bm)).map
            (fun l => (l.edge, loopTangent bm i l)))
  | [], _, _ => rfl
  | l :: ls, hcond, hgood => by
    have hcond' := fun l' hl' => hcond l' (List.mem_cons_of_mem l hl')
    have hgood' := fun l' hl' => hgood l' (List.mem_cons_of_mem l hl')
    have ih := collectLoops_char bm name i v hv ls hcond' hgood'
    cases hql : edgeQualifies bm l with
    | true =>
      have hloop := collectLoop_qual bm name i v l hv
        (hcond l (List.mem_cons_self l ls)) hql
      rw [if_neg (hgood l (List.mem_cons_self l ls) hql)] at hloop
      simp only [collectLoops, hloop, ih, List.filter_cons, hql, if_true,
        List.map_cons]
    | false =>
      obtain ⟨e, he, _, _, _⟩ := hcond l (List.mem_cons_self l ls)
      have hloop := collectLoop_nonqual bm name i v l e he hql
      simp only [collectLoops, hloop, ih, List.filter_cons, hql,
        Bool.false_eq_true, if_false]

/-- First pass over one vertex's loops when some qualifying tangent fails
the length check: a tangent error is raised. -/
lemma collectLoops_err (bm : BMesh) (name : String) (i : ℕ) (v : BMVert)
    (hv : bm.verts.get? i = some v) :
    ∀ ls : List BMLoop,
      (∀ l ∈ ls, LoopCond bm i l) →
      (∃ l ∈ ls, edgeQualifies bm l = true
        ∧ |vlen (loopTangent bm i l) - 1| > kerfTol) →
      ∃ t, collectLoops bm name i v ls = .error (.tangentNotUnit name t)
  | [], _, hbad => by simp at hbad
  | l :: ls, hcond, hbad => by
    have hcond' := fun l' hl' => hcond l' (List.mem_cons_of_mem l hl')
    cases hql : edgeQualifies bm l with
    | true =>
      have hloop := collectLoop_qual bm name i v l hv
        (hcond l (List.mem_cons_self l ls)) hql
      by_cases hb : |vlen (loopTangent bm i l) - 1| > kerfTol
      · rw [if_pos hb] at hloop
        exact ⟨loopTangent bm i l, by simp only [collectLoops, hloop]⟩
      · rw [if_neg hb] at hloop
        have hbad' : ∃ l' ∈ ls, edgeQualifies bm l' = true
            ∧ |vlen (loopTangent bm i l') - 1| > kerfTol := by
          obtain ⟨l', hl', hq', hb'⟩ := hbad
          rcases List.mem_cons.mp hl' with h | h
          · subst h; exact absurd hb' hb
          · exact ⟨l', h, hq', hb'⟩
        obtain ⟨t, ht⟩ := collectLoops_err bm name i v hv ls hcond' hbad'
        exact ⟨t, by simp only [collectLoops, hloop, ht]⟩
    | false =>
      obtain ⟨e, he, _, _, _⟩ := hcond l (List.mem_cons_self l ls)
      have hloop := collectLoop_nonqual bm name i v l e he hql
      have hbad' : ∃ l' ∈ ls, edgeQualifies bm l' = true
          ∧ |vlen (loopTangent bm i l') - 1| > kerfTol := by
        obtain ⟨l', hl', hq', hb'⟩ := hbad
        rcases List.mem_cons.mp hl' with h | h
        · subst h; rw [hql] at hq'; exact absurd hq' (by simp)
        · exact ⟨l', h, hq', hb'⟩
      obtain ⟨t, ht⟩ := collectLoops_err bm name i v hv ls hcond' hbad'
      exact ⟨t, by simp only [collectLoops, hloop, ht]⟩

/-- The qualifying pairs of a cons vertex list. -/
lemma qualOf_cons (bm : BMesh) (p : ℕ × BMVert) (ps : List (ℕ × BMVert)) :
    qualOf bm (p :: ps)
      = (if p.2.is_boundary
         then (p.2.link_loops.filter (edgeQualifies bm)).map (fun l => (p.1, l))
         else [])
        ++ qualOf bm ps := by
  unfold qualOf
  rw [List.filter_cons]
  cases hb : p.2.is_boundary with
  | true => simp
  | false => simp

/-- First pass over a vertex list when every qualifying tangent passes the
length check: exactly the qualifying pairs are collected, in order. -/
lemma collectVerts_char (bm : BMesh) (name : String) :
    ∀ ps : List (ℕ × BMVert),
      (∀ p ∈ ps, bm.verts.get? p.1 = some p.2) →
      (∀ p ∈ ps, p.2.is_boundary = true → ∀ l ∈ p.2.link_loops, LoopCond bm p.1 l) →
      (∀ q ∈ qualOf bm ps, ¬(|vlen (loopTangent bm q.1 q.2) - 1| > kerfTol)) →
      collectVerts bm name ps
        = .ok ((qualOf bm ps).map (fun q => (q.2.edge, loopTangent bm q.1 q.2)))
  | [], _, _, _ => rfl
  | p :: ps, hmem, hcond, hgood => by
    obtain ⟨i, v⟩ := p
    have hv := hmem (i, v) (List.mem_cons_self _ _)
    have hmem' := fun q hq => hmem q (List.mem_cons_of_mem _ hq)
    have hcond' := fun q hq => hcond q (List.mem_cons_of_mem _ hq)
    have hgood' : ∀ q ∈ qualOf bm ps,
        ¬(|vlen (loopTangent bm q.1 q.2) - 1| > kerfTol) := by
      intro q hq
      refine hgood q ?_
      rw [qualOf_cons]
      exact List.mem_append_right _ hq
    have ih := collectVerts_char bm name ps hmem' hcond' hgood'
    cases hb : v.is_boundary with
    | false =>
      simp only [collectVerts, hb, Bool.false_eq_true, if_false, ih]
      rw [qualOf_cons]
      simp [hb]
    | true =>
      have hloops := collectLoops_char bm name i v hv v.link_loops
        (hcond (i, v) (List.mem_cons_self _ _) hb)
        (by
          intro l hl hql
          refine hgood (i, l) ?_
          rw [qualOf_cons]
          refine List.mem_append_left _ ?_
          simp only [hb, if_true]
          exact List.mem_map_of_mem _ (List.mem_filter.mpr ⟨hl, hql⟩))
      simp only [collectVerts, hb, if_true, hloops, ih]
      rw [qualOf_cons]
      simp only [hb, if_true, List.map_append, List.map_map]
      rfl

/-- First pass over a vertex list containing a failing qualifying tangent:
a tangent error naming the object is raised. -/
lemma collectVerts_err (bm : BMesh) (name : String) :
    ∀ ps : List (ℕ × BMVert),
      (∀ p ∈ ps, bm.verts.get? p.1 = some p.2) →
      (∀ p ∈ ps, p.2.is_boundary = true → ∀ l ∈ p.2.link_loops, LoopCond bm p.1 l) →
      (∃ q ∈ qualOf bm ps, |vlen (loopTangent bm q.1 q.2) - 1| > kerfTol) →
      ∃ t, collectVerts bm name ps = .error (.tangentNotUnit name t)
  | [], _, _, hbad => by simp [qualOf] at hbad
  | p :: ps, hmem, hcond, hbad => by
    obtain ⟨i, v⟩ := p
    have hv := hmem (i, v) (List.mem_cons_self _ _)
    have hmem' := fun q hq => hmem q (List.mem_cons_of_mem _ hq)
    have hcond' := fun q hq => hcond q (List.mem_cons_of_mem _ hq)
    rw [qualOf_cons] at hbad
    cases hb : v.is_boundary with
    | false =>
      rw [hb] at hbad
      simp only [Bool.false_eq_true, if_false, List.nil_append] at hbad
      obtain ⟨t, ht⟩ := collectVerts_err bm name ps hmem' hcond' hbad
      exact ⟨t, by simp only [collectVerts, hb, Bool.false_eq_true, if_false, ht]⟩
    | true =>
      rw [hb] at hbad
      simp only [if_true] at hbad
      by_cases hloc : ∃ l ∈ v.link_loops, edgeQualifies bm l = true
          ∧ |vlen (loopTangent bm i l) - 1| > kerfTol
      · obtain ⟨t, ht⟩ := collectLoops_err bm name i v hv v.link_loops
          (hcond (i, v) (List.mem_cons_self _ _) hb) hloc
        exact ⟨t, by simp only [collectVerts, hb, if_true, ht]⟩
      · push_neg at hloc
        have hgoodloc : ∀ l ∈ v.link_loops, edgeQualifies bm l = true →
            ¬(|vlen (loopTangent bm i l) - 1| > kerfTol) := by
          intro l hl hql hcontra
          exact absurd hcontra (by simpa using hloc l hl hql)
        have hloops := collectLoops_char bm name i v hv v.link_loops
          (hcond (i, v) (List.mem_cons_self _ _) hb) hgoodloc
        have hbad' : ∃ q ∈ qualOf bm ps,
            |vlen (loopTangent bm q.1 q.2) - 1| > kerfTol := by
          obtain ⟨q, hq, hbq⟩ := hbad
          rcases List.mem_append.mp hq with hqh | hqt
          · obtain ⟨l, hl, hql⟩ := List.mem_map.mp hqh
            obtain ⟨hl1, hl2⟩ := List.mem_filter.mp hl
            rw [← hql] at hbq
            exact absurd hbq (by simpa using hloc l hl1 hl2)
          · exact ⟨q, hqt, hbq⟩
        obtain ⟨t, ht⟩ := collectVerts_err bm name ps hmem' hcond' hbad'
        exact ⟨t, by simp only [collectVerts, hb, if_true, hloops, ht]⟩

/-- Lower bound on enumeration indices. -/
lemma enumFrom_fst_ge {α : Type} :
    ∀ (n : ℕ) (l : List α) (p : ℕ × α), p ∈ l.enumFrom n → n ≤ p.1
  | _, [], _, h => by simp at h
  | n, a :: rest, p, h => by
    simp only [List.enumFrom, List.mem_cons] at h
    rcases h with h | h
    · simp [h]
    · have := enumFrom_fst_ge (n + 1) rest p h
      omega

/-- Enumeration pairs resolve through `get?`. -/
lemma enumFrom_get? {α : Type} :
    ∀ (n : ℕ) (l : List α) (p : ℕ × α), p ∈ l.enumFrom n →
      l.get? (p.1 - n) = some p.2
  | _, [], _, h => by simp at h
  | n, a :: rest, p, h => by
    simp only [List.enumFrom, List.mem_cons] at h
    rcases h with h | h
    · subst h
      simp
    · have h1 := enumFrom_get? (n + 1) rest p h
      have h2 := enumFrom_fst_ge (n + 1) rest p h
      have h3 : p.1 - n = (p.1 - (n + 1)) + 1 := by omega
      rw [h3]
      simpa using h1

/-- `enum` pairs resolve through `get?`. -/
lemma enum_get? {α : Type} (l : List α) (p : ℕ × α) (h : p ∈ l.enum) :
    l.get? p.1 = some p.2 := by
  have := enumFrom_get? 0 l p h
  simpa using this

/-- Unpacking `edgesOk` for one edge. -/
lemma edgesOk_spec {bm : BMesh} (h : edgesOk bm = true) {e : BMEdge}
    (he : e ∈ bm.edges) :
    e.v1 ≠ e.v2 ∧ e.v1 < bm.verts.length ∧ e.v2 < bm.verts.length := by
  unfold edgesOk at h
  rw [List.all_eq_true] at h
  have h1 := h e he
  simp only [Bool.and_eq_true, Bool.not_eq_true', beq_eq_false_iff_ne,
    decide_eq_true_eq] at h1
  exact ⟨h1.1.1, h1.1.2, h1.2⟩

/-- Unpacking `edgesOk` and `loopsOk` into per-loop well-formedness. -/
lemma loopsOk_spec {bm : BMesh} (hE : edgesOk bm = true)
    (hL : loopsOk bm = true) :
    ∀ p ∈ bm.verts.enum, p.2.is_boundary = true →
      ∀ l ∈ p.2.link_loops, LoopCond bm p.1 l := by
  intro p hp hb l hl
  unfold loopsOk at hL
  rw [List.all_eq_true] at hL
  have h1 := hL p hp
  have h1' : p.2.is_boundary = false
      ∨ (p.2.link_loops.all (fun l =>
          match bm.edges.get? l.edge with
          | none => false
          | some e => e.v1 == p.1 || e.v2 == p.1)) = true := by
    simpa [Bool.or_eq_true_iff, Bool.not_eq_true'] using h1
  rcases h1' with h1' | h1'
  · rw [hb] at h1'; exact absurd h1' (by simp)
  · rw [List.all_eq_true] at h1'
    have h2 := h1' l hl
    cases he : bm.edges.get? l.edge with
    | none => simp only [he] at h2; exact absurd h2 (by simp)
    | some e =>
      simp only [he] at h2
      have hmem : e ∈ bm.edges := List.get?_mem he
      obtain ⟨hne, hr1, hr2⟩ := edgesOk_spec hE hmem
      have hinc : e.v1 = p.1 ∨ e.v2 = p.1 := by simpa using h2
      exact ⟨e, he, hinc, hr1, hr2⟩

/-- The second pass never raises a tangent error. -/
lemma vtxDirsGo_err_form (bm : BMesh) :
    ∀ (gs : List (ℕ × List Vec3)) (d : List (ℕ × Vec3)) (err : KerfError),
      vtxDirsGo bm d gs = .error err →
      err = .edgeVisitedTwice ∨ err = .invalidLookup
  | [], d, err, h => by simp [vtxDirsGo] at h
  | (eidx, kerfs) :: rest, d, err, h => by
    match kerfs with
    | [t] =>
      simp only [vtxDirsGo] at h
      cases he : bm.edges.get? eidx with
      | none =>
        simp only [he, Except.error.injEq] at h
        exact Or.inr h.symm
      | some e =>
        simp only [he] at h
        exact vtxDirsGo_err_form bm rest _ err h
    | [] =>
      simp only [vtxDirsGo, Except.error.injEq] at h
      exact Or.inl h.symm
    | t1 :: t2 :: ts =>
      simp only [vtxDirsGo, Except.error.injEq] at h
      exact Or.inl h.symm

/-- The third pass never raises a tangent error. -/
lemma dispVertsGo_err_form (kw : ℝ) :
    ∀ (dirs : List (ℕ × Vec3)) (verts : List BMVert) (err : KerfError),
      dispVertsGo kw verts dirs = .error err → err = .invalidLookup
  | [], verts, err, h => by simp [dispVertsGo] at h
  | (vi, dir) :: rest, verts, err, h => by
    simp only [dispVertsGo] at h
    cases hv : verts.get? vi with
    | none =>
      simp only [hv, Except.error.injEq] at h
      exact h.symm
    | some v =>
      simp only [hv] at h
      exact dispVertsGo_err_form kw rest _ err h

/-- The filtered fold of `kerfSum` is the incident sum over the collected
pair list. -/
lemma foldl_filter_incSum (bm : BMesh) (k : ℕ) :
    ∀ (qs : List (ℕ × BMLoop)) (acc : Vec3),
      (qs.filter (fun p => edgeIncident bm p.2.edge k)).foldl
        (fun a p => add3 a (loopTangent bm p.1 p.2)) acc
      = add3 acc
          (incSum bm (qs.map (fun q => (q.2.edge, loopTangent bm q.1 q.2))) k)
  | [], acc => by simp [incSum, add3_zero3]
  | q :: qs, acc => by
    have ih := foldl_filter_incSum bm k qs
    rw [List.filter_cons, List.map_cons]
    cases hc : edgeIncident bm q.2.edge k with
    | true =>
      simp only [if_true, List.foldl_cons, ih, incSum, hc]
      rw [← add3_assoc]
    | false =>
      simp only [Bool.false_eq_true, if_false, ih, incSum, hc]

/-- The accumulated kerf direction is the incident sum over the collected
pairs. -/
lemma kerfSum_eq_incSum (bm : BMesh) (k : ℕ) :
    kerfSum bm k
      = incSum bm
          ((qualPairs bm).map (fun q => (q.2.edge, loopTangent bm q.1 q.2))) k := by
  unfold kerfSum
  rw [foldl_filter_incSum, zero3_add3]

/-- If the second pass succeeds, the collected edge keys were pairwise
distinct (the source's `assert len(kerfs) == 1` held on every entry). -/
lemma groupKerfs_ok_nodup (bm : BMesh) (pairs : List (ℕ × Vec3))
    (D : List (ℕ × Vec3)) (h : vtxDirsGo bm [] (groupKerfs pairs) = .ok D) :
    (pairs.map Prod.fst).Nodup := by
  rw [List.nodup_iff_count_le_one]
  intro k
  by_contra hc
  push_neg at hc
  have hcount := alGetG_fold_count k pairs []
  have hlen : (alGetG (groupKerfs pairs) k).length
      = (pairs.map Prod.fst).count k := by
    unfold groupKerfs
    rw [hcount]
    simp [alGetG]
  have hne : alGetG (groupKerfs pairs) k ≠ [] := by
    intro hnil
    rw [hnil] at hlen
    simp only [List.length_nil] at hlen
    omega
  have hmem := alGetG_mem _ k hne
  obtain ⟨t, ht⟩ := vtxDirsGo_ok_singletons bm _ [] D h _ hmem
  simp only at ht
  rw [ht] at hlen
  simp only [List.length_cons, List.length_nil] at hlen
  omega

/-- Under the well-formedness checks, every qualifying pair satisfies the
per-loop condition. -/
lemma qualPairs_cond {bm : BMesh} (hE : edgesOk bm = true)
    (hL : loopsOk bm = true) :
    ∀ q ∈ qualPairs bm, LoopCond bm q.1 q.2 := by
  intro q hq
  unfold qualPairs qualOf at hq
  rw [List.mem_flatMap] at hq
  obtain ⟨p, hp, hq2⟩ := hq
  rw [List.mem_filter] at hp
  obtain ⟨hpmem, hpb⟩ := hp
  rw [List.mem_map] at hq2
  obtain ⟨l, hl, hql⟩ := hq2
  rw [List.mem_filter] at hl
  subst hql
  exact loopsOk_spec hE hL p hpmem hpb l hl.1

/-- The collected `(edge, tangent)` pairs name existing non-degenerate
edges. -/
lemma pairs_cond {bm : BMesh} (hE : edgesOk bm = true)
    (hL : loopsOk bm = true) :
    ∀ p ∈ (qualPairs bm).map (fun q => (q.2.edge, loopTangent bm q.1 q.2)),
      ∃ e, bm.edges.get? p.1 = some e ∧ e.v1 ≠ e.v2 := by
  intro p hp
  rw [List.mem_map] at hp
  obtain ⟨q, hq, hpq⟩ := hp
  obtain ⟨e, he, _, _, _⟩ := qualPairs_cond hE hL q hq
  subst hpq
  exact ⟨e, he, (edgesOk_spec hE (List.get?_mem he)).1⟩

/-- When no qualifying tangent violates the tolerance, the first pass
collects exactly the qualifying pairs. -/
lemma collectTangents_ok (bm : BMesh) (name : String)
    (hE : edgesOk bm = true) (hL : loopsOk bm = true)
    (hgood : ¬ badTangent bm) :
    collectTangents bm name
      = .ok ((qualPairs bm).map (fun q => (q.2.edge, loopTangent bm q.1 q.2))) := by
  have hmem : ∀ p ∈ bm.verts.enum, bm.verts.get? p.1 = some p.2 :=
    fun p hp => enum_get? _ p hp
  exact collectVerts_char bm name bm.verts.enum hmem (loopsOk_spec hE hL)
    (fun q hq hcontra => hgood ⟨q, hq, hcontra⟩)

/-- When some qualifying tangent violates the tolerance, the first pass
raises a tangent error naming the object. -/
lemma collectTangents_err (bm : BMesh) (name : String)
    (hE : edgesOk bm = true) (hL : loopsOk bm = true)
    (hbad : badTangent bm) :
    ∃ t, collectTangents bm name = .error (.tangentNotUnit name t) := by
  have hmem : ∀ p ∈ bm.verts.enum, bm.verts.get? p.1 = some p.2 :=
    fun p hp => enum_get? _ p hp
  exact collectVerts_err bm name bm.verts.enum hmem (loopsOk_spec hE hL) hbad

/-- Full characterization of a successful kerf pass: under the
well-formedness checks, distinct qualifying edges and unit tangents,
`add_kerf` succeeds, keeps the edges and the vertex count, and displaces
every vertex by the clamped incident-tangent sum scaled by half the laser
width — with all tangents taken from the original positions. -/
lemma add_kerf_ok_char (bm : BMesh) (laser_width : ℝ) (object_name : String)
    (hE : edgesOk bm = true) (hL : loopsOk bm = true) (hK : keysOnce bm)
    (hgood : ¬ badTangent bm) :
    ∃ out, add_kerf bm laser_width object_name = .ok ⟨out, bm.edges⟩
      ∧ out.length = bm.verts.length
      ∧ ∀ i, i < bm.verts.length →
          (out.getD i dummyVert).co
            = add3 ((bm.verts.getD i dummyVert).co)
                (smul3 (laser_width / 2) (clampVec (kerfSum bm i))) := by
  have hct := collectTangents_ok bm object_name hE hL hgood
  obtain ⟨D, hD, hsum, hkeysD, hndD⟩ :=
    vtxDirsGo_char bm
      ((qualPairs bm).map (fun q => (q.2.edge, loopTangent bm q.1 q.2))) []
      (pairs_cond hE hL)
  have hK' : (((qualPairs bm).map
      (fun q => (q.2.edge, loopTangent bm q.1 q.2))).map Prod.fst).Nodup := by
    rw [List.map_map]
    exact hK
  have hgroup : groupKerfs
      ((qualPairs bm).map (fun q => (q.2.edge, loopTangent bm q.1 q.2)))
      = ((qualPairs bm).map (fun q => (q.2.edge, loopTangent bm q.1 q.2))).map
          (fun p => (p.1, [p.2])) := by
    have := groupKerfs_of_nodup
      ((qualPairs bm).map (fun q => (q.2.edge, loopTangent bm q.1 q.2))) []
      (by simpa [alKeysG] using hK')
    simpa [groupKerfs] using this
  have hDok : vtxDirsGo bm []
      (groupKerfs ((qualPairs bm).map
        (fun q => (q.2.edge, loopTangent bm q.1 q.2)))) = .ok D := by
    rw [hgroup]
    exact hD
  have hsum' : ∀ k, alGet D k = kerfSum bm k := by
    intro k
    rw [hsum k, kerfSum_eq_incSum]
    simp [alGet, zero3_add3]
  have hrangeD : ∀ j ∈ alKeys D, j < bm.verts.length := by
    intro j hj
    rcases hkeysD j hj with h | ⟨p, hp, e, he, hj'⟩
    · simp [alKeys] at h
    · obtain ⟨-, h1, h2⟩ := edgesOk_spec hE (List.get?_mem he)
      rcases hj' with h | h <;> subst h <;> assumption
  have hndD' := hndD (by simp [alKeys])
  obtain ⟨out, hout, hlen, hco⟩ :=
    dispVertsGo_char (laser_width / 2) D bm.verts hndD' hrangeD
  refine ⟨out, ?_, hlen, ?_⟩
  · simp only [add_kerf, hct, hDok, hout]
  · intro i hi
    rw [hco i hi, hsum' i]

/-- A vector with unit dot square is fixed by normalization. -/
lemma vnorm_unit (v : Vec3) (h : dot3 v v = 1) : vnormalized v = v := by
  obtain ⟨x, y, z⟩ := v
  unfold vnormalized vlen
  rw [h, Real.sqrt_one, inv_one]
  simp [smul3]

/-- The demo mesh's single tangent evaluates to `(0, -1, 0)`. -/
lemma demo_tangent :
    vnormalized (cross3 (vnormalized (sub3 (1, 0, 0) (0, 0, 0))) (0, 0, 1))
      = ((0 : ℝ), -1, 0) := by
  have h1 : sub3 (1, 0, 0) (0, 0, 0) = ((1 : ℝ), 0, 0) := by
    unfold sub3; norm_num
  have h2 : vnormalized ((1 : ℝ), 0, 0) = (1, 0, 0) :=
    vnorm_unit _ (by unfold dot3; norm_num)
  have h3 : cross3 ((1 : ℝ), 0, 0) (0, 0, 1) = (0, -1, 0) := by
    unfold cross3; norm_num
  have h4 : vnormalized ((0 : ℝ), -1, 0) = (0, -1, 0) :=
    vnorm_unit _ (by unfold dot3; norm_num)
  rw [h1, h2, h3, h4]

/-- The demo tangent has unit length. -/
lemma demo_len : vlen ((0 : ℝ), -1, 0) = 1 := by
  unfold vlen dot3
  norm_num [Real.sqrt_one]

/-- The demo tangent passes the tolerance check. -/
lemma demo_tol : ¬(|vlen ((0 : ℝ), -1, 0) - 1| > kerfTol) := by
  rw [demo_len]
  unfold kerfTol
  norm_num

/-- The demo mesh's tangent as seen by the spec-side view. -/
lemma demo_loopTangent :
    loopTangent demoBM 0 ⟨0, (0, 0, 1)⟩ = ((0 : ℝ), -1, 0) := by
  have he : demoBM.edges.getD 0 dummyEdge = ⟨0, 1, false, false, false⟩ := rfl
  have hv : demoBM.verts.getD 0 dummyVert
      = ⟨(0, 0, 0), true, [⟨0, (0, 0, 1)⟩]⟩ := rfl
  have hov : otherVertIdx ⟨0, 1, false, false, false⟩ 0 = some 1 := rfl
  have hvo : demoBM.verts.getD 1 dummyVert = ⟨(1, 0, 0), true, []⟩ := rfl
  simp only [loopTangent, he, hv, hov, Option.getD_some, hvo]
  exact demo_tangent

/-- The demo mesh's qualifying pairs. -/
lemma demo_qualPairs : qualPairs demoBM = [(0, ⟨0, (0, 0, 1)⟩)] := rfl

/-- No demo tangent violates the tolerance. -/
lemma demo_good : ¬ badTangent demoBM := by
  rintro ⟨p, hp, hbad⟩
  rw [demo_qualPairs] at hp
  simp only [List.mem_singleton] at hp
  subst hp
  rw [demo_loopTangent, demo_len] at hbad
  unfold kerfTol at hbad
  norm_num at hbad

/-- The demo first pass on the single loop. -/
lemma demo_collectLoop :
    collectLoop demoBM "demo" 0 ⟨(0, 0, 0), true, [⟨0, (0, 0, 1)⟩]⟩ ⟨0, (0, 0, 1)⟩
      = .ok (some (0, ((0 : ℝ), -1, 0))) := by
  have he : demoBM.edges.get? 0 = some ⟨0, 1, false, false, false⟩ := rfl
  have hov : otherVertIdx ⟨0, 1, false, false, false⟩ 0 = some 1 := rfl
  have hvo : demoBM.verts.get? 1 = some ⟨(1, 0, 0), true, []⟩ := rfl
  simp only [collectLoop, he, hov, hvo, Bool.or_self, Bool.false_eq_true,
    if_false, demo_tangent]
  rw [if_neg demo_tol]

/-- The demo first pass on vertex 0's loops. -/
lemma demo_collectLoops :
    collectLoops demoBM "demo" 0 ⟨(0, 0, 0), true, [⟨0, (0, 0, 1)⟩]⟩
        [⟨0, (0, 0, 1)⟩]
      = .ok [(0, ((0 : ℝ), -1, 0))] := by
  simp only [collectLoops, demo_collectLoop]

/-- The demo first pass collects the single tangent. -/
lemma demo_collectTangents :
    collectTangents demoBM "demo" = .ok [(0, ((0 : ℝ), -1, 0))] := by
  have h0 : demoBM.verts.enum = [(0, ⟨(0, 0, 0), true, [⟨0, (0, 0, 1)⟩]⟩),
      (1, ⟨(1, 0, 0), true, []⟩)] := rfl
  simp only [collectTangents, h0, collectVerts, collectLoops, demo_collectLoop,
    if_true, List.append_nil]

/-- Grouping the demo pairs. -/
lemma demo_group :
    groupKerfs [(0, ((0 : ℝ), -1, 0))] = [(0, [((0 : ℝ), -1, 0)])] := by
  simp [groupKerfs, alAppend]

/-- The demo second pass charges both endpoints. -/
lemma demo_vtxDirs :
    vtxDirsGo demoBM [] [(0, [((0 : ℝ), -1, 0)])]
      = .ok [(0, ((0 : ℝ), -1, 0)), (1, ((0 : ℝ), -1, 0))] := by
  have he : demoBM.edges[0]? = some ⟨0, 1, false, false, false⟩ := rfl
  simp only [vtxDirsGo, List.get?_eq_getElem?, he]
  norm_num [alAdd]

/-- The demo mesh's clamped direction. -/
lemma demo_clamp : clampVec ((0 : ℝ), -1, 0) = (0, -1, 0) := by
  norm_num [clampVec, min_def, max_def]

/-- Displacing the demo's first vertex. -/
lemma demo_co0 :
    add3 ((0 : ℝ), 0, 0) (smul3 ((2 : ℝ) / 2) (clampVec (0, -1, 0)))
      = (0, -1, 0) := by
  rw [demo_clamp]
  unfold add3 smul3
  norm_num

/-- Displacing the demo's second vertex. -/
lemma demo_co1 :
    add3 ((1 : ℝ), 0, 0) (smul3 ((2 : ℝ) / 2) (clampVec (0, -1, 0)))
      = (1, -1, 0) := by
  rw [demo_clamp]
  unfold add3 smul3
  norm_num

/-- The demo third pass produces the expected displaced vertices. -/
lemma demo_disp :
    dispVertsGo ((2 : ℝ) / 2) demoBM.verts
        [(0, ((0 : ℝ), -1, 0)), (1, ((0 : ℝ), -1, 0))]
      = .ok demoOut.verts := by
  have hget0 : demoBM.verts.get? 0
      = some ⟨(0, 0, 0), true, [⟨0, (0, 0, 1)⟩]⟩ := rfl
  have hset0 : demoBM.verts.set 0 ⟨((0 : ℝ), -1, 0), true, [⟨0, (0, 0, 1)⟩]⟩
      = [⟨((0 : ℝ), -1, 0), true, [⟨0, (0, 0, 1)⟩]⟩, ⟨(1, 0, 0), true, []⟩] := rfl
  have hget1 : ([⟨((0 : ℝ), -1, 0), true, [⟨0, (0, 0, 1)⟩]⟩,
      ⟨((1 : ℝ), 0, 0), true, []⟩] : List BMVert).get? 1
      = some ⟨(1, 0, 0), true, []⟩ := rfl
  have hset1 : ([⟨((0 : ℝ), -1, 0), true, [⟨0, (0, 0, 1)⟩]⟩,
      ⟨((1 : ℝ), 0, 0), true, []⟩] : List BMVert).set 1
        ⟨((1 : ℝ), -1, 0), true, []⟩
      = demoOut.verts := rfl
  simp only [dispVertsGo, hget0, demo_co0, hset0, hget1, demo_co1, hset1]

/-- `add_kerf` on the demo mesh with laser width 2 yields the displaced
mesh. -/
lemma demo_add_kerf : add_kerf demoBM 2 "demo" = .ok demoOut := by
  simp only [add_kerf, demo_collectTangents, demo_group, demo_vtxDirs, demo_disp]
  rfl

/-- C1: for every well-formed mesh and laser width, a successful `add_kerf`
is two-pass: all tangents are taken from the original (pre-displacement)
vertex positions (`kerfSum` reads only the input mesh), and every vertex is
displaced by exactly `clamp(sum of the tangents of its qualifying incident
edges) * (laser_width / 2)`, the clamp acting componentwise into `[-1, 1]`;
the edge list and the vertex count are unchanged. -/
theorem add_kerf_two_pass (bm : BMesh) (laser_width : ℝ) (object_name : String)
    (bm' : BMesh) (hE : edgesOk bm = true) (hL : loopsOk bm = true)
    (hok : add_kerf bm laser_width object_name = .ok bm') :
    bm'.edges = bm.edges ∧ bm'.verts.length = bm.verts.length ∧
    ∀ i, i < bm.verts.length →
      vertCo bm' i
        = add3 (vertCo bm i)
            (smul3 (laser_width / 2) (clampVec (kerfSum bm i))) := by
  have hgood : ¬ badTangent bm := by
    intro hbad
    obtain ⟨t, ht⟩ := collectTangents_err bm object_name hE hL hbad
    have hok2 := hok
    simp only [add_kerf, ht] at hok2
    exact Except.noConfusion hok2
  have hct := collectTangents_ok bm object_name hE hL hgood
  have hK : keysOnce bm := by
    have hok2 := hok
    simp only [add_kerf, hct] at hok2
    cases hvd : vtxDirsGo bm [] (groupKerfs ((qualPairs bm).map
        (fun q => (q.2.edge, loopTangent bm q.1 q.2)))) with
    | error err =>
      simp only [hvd] at hok2
      exact Except.noConfusion hok2
    | ok dirs =>
      have hnodup := groupKerfs_ok_nodup bm _ dirs hvd
      unfold keysOnce
      rw [List.map_map] at hnodup
      exact hnodup
  obtain ⟨out, hchar, hlen, hco⟩ :=
    add_kerf_ok_char bm laser_width object_name hE hL hK hgood
  have hbm' : bm' = ⟨out, bm.edges⟩ := Except.ok.inj (hok.symm.trans hchar)
  subst hbm'
  refine ⟨rfl, hlen, ?_⟩
  intro i hi
  unfold vertCo
  exact hco i hi

/-- Closed instance of `add_kerf_two_pass` on the demo mesh. -/
theorem add_kerf_two_pass_witness :
    edgesOk demoBM = true ∧ loopsOk demoBM = true
    ∧ add_kerf demoBM 2 "demo" = .ok demoOut
    ∧ (demoOut.edges = demoBM.edges
       ∧ demoOut.verts.length = demoBM.verts.length
       ∧ ∀ i, i < demoBM.verts.length →
           vertCo demoOut i
             = add3 (vertCo demoBM i)
                 (smul3 ((2 : ℝ) / 2) (clampVec (kerfSum demoBM i)))) :=
  ⟨by decide, by decide, demo_add_kerf,
   add_kerf_two_pass demoBM 2 "demo" demoOut (by decide) (by decide)
     demo_add_kerf⟩

/-- C6: for every well-formed mesh, `add_kerf` raises the
`MeshAnalysisError` naming the object iff some qualifying tangent's length
differs from 1 by more than the `1e-6` tolerance; and when no tangent
violates the tolerance (and each qualifying edge is met once, the source's
`assert`), `add_kerf` completes without raising. -/
theorem add_kerf_error_iff (bm : BMesh) (laser_width : ℝ) (object_name : String)
    (hE : edgesOk bm = true) (hL : loopsOk bm = true) :
    ((∃ t, add_kerf bm laser_width object_name
        = .error (.tangentNotUnit object_name t)) ↔ badTangent bm)
    ∧ (¬ badTangent bm → keysOnce bm →
        ∃ bm', add_kerf bm laser_width object_name = .ok bm') := by
  constructor
  · constructor
    · rintro ⟨t, ht⟩
      by_contra hgood
      have hct := collectTangents_ok bm object_name hE hL hgood
      simp only [add_kerf, hct] at ht
      cases hvd : vtxDirsGo bm [] (groupKerfs ((qualPairs bm).map
          (fun q => (q.2.edge, loopTangent bm q.1 q.2)))) with
      | error err =>
        simp only [hvd] at ht
        have herr := vtxDirsGo_err_form bm _ [] err hvd
        have hteq : err = .tangentNotUnit object_name t := Except.error.inj ht
        rw [hteq] at herr
        rcases herr with h | h <;> exact KerfError.noConfusion h
      | ok dirs =>
        simp only [hvd] at ht
        cases hdv : dispVertsGo (laser_width / 2) bm.verts dirs with
        | error err2 =>
          simp only [hdv] at ht
          have herr := dispVertsGo_err_form (laser_width / 2) dirs bm.verts
            err2 hdv
          have hteq : err2 = .tangentNotUnit object_name t := Except.error.inj ht
          rw [hteq] at herr
          exact KerfError.noConfusion herr
        | ok verts' =>
          simp only [hdv] at ht
          exact Except.noConfusion ht
    · intro hbad
      obtain ⟨t, ht⟩ := collectTangents_err bm object_name hE hL hbad
      exact ⟨t, by simp only [add_kerf, ht]⟩
  · intro hgood hK
    obtain ⟨out, hchar, -, -⟩ :=
      add_kerf_ok_char bm laser_width object_name hE hL hK hgood
    exact ⟨⟨out, bm.edges⟩, hchar⟩

/-- Closed instance of `add_kerf_error_iff` on the demo mesh: no violating
tangent, so no error is raised and the pass completes. -/
theorem add_kerf_error_iff_witness :
    edgesOk demoBM = true ∧ loopsOk demoBM = true
    ∧ ¬ badTangent demoBM ∧ keysOnce demoBM
    ∧ ¬(∃ t, add_kerf demoBM 2 "demo"
        = .error (.tangentNotUnit "demo" t))
    ∧ ∃ bm', add_kerf demoBM 2 "demo" = .ok bm' :=
  ⟨by decide, by decide, demo_good, by unfold keysOnce; decide,
   fun h => demo_good ((add_kerf_error_iff demoBM 2 "demo" (by decide)
     (by decide)).1.mp h),
   (add_kerf_error_iff demoBM 2 "demo" (by decide) (by decide)).2 demo_good
     (by unfold keysOnce; decide)⟩

/-- One-coordinate float translation roundtrip under exactness. -/
lemma XR.addF_roundtrip (c : XR) (t : ℚ) (h : exactStep c t) :
    (c.addF (XR.fin t)).addF (XR.fin (-t)) = c := by
  cases c with
  | ninf => rfl
  | pinf => rfl
  | fin q =>
    obtain ⟨h1, h2⟩ := h q rfl
    simp only [XR.addF, h1]
    rw [show q + t + -t = q from by ring, h2]

set_option maxRecDepth 10000 in
/-- C9 (counterexample): with the source's binary64 float additions the
roundtrip fails on the doubles written `0.1` and `0.2` in Python:
`(0.1 + 0.2) - 0.2` rounds to `0.10000000000000003`, so translating the box
by `(0.2, 0)` and back does not return it. -/
theorem translated_roundtripF_ce :
    ((⟨XR.fin (3602879701896397 / 2 ^ 55), XR.fin 0,
        XR.fin (3602879701896397 / 2 ^ 55), XR.fin 0⟩ : AABB).translatedF
          (3602879701896397 / 2 ^ 54, 0)).translatedF
            (-(3602879701896397 / 2 ^ 54), 0)
      ≠ ⟨XR.fin (3602879701896397 / 2 ^ 55), XR.fin 0,
          XR.fin (3602879701896397 / 2 ^ 55), XR.fin 0⟩ := by
  decide

/-- C9 (amended): `translated` shifts each coordinate by a binary64 float
addition; translating by `v` and then by `-v` returns the original box
whenever every finite coordinate is a float value whose sum with the offset
rounds exactly (negation of a float is always exact) — in particular under
exact arithmetic the roundtrip holds for every box; with rounding it fails
in general. -/
theorem translated_roundtripF (A : AABB) (v : Vector2)
    (h1 : exactStep A.min_x v.1) (h2 : exactStep A.min_y v.2)
    (h3 : exactStep A.max_x v.1) (h4 : exactStep A.max_y v.2) :
    (A.translatedF v).translatedF (-v.1, -v.2) = A := by
  obtain ⟨a, b, c, d⟩ := A
  simp only [AABB.translatedF, AABB.mk.injEq]
  exact ⟨XR.addF_roundtrip a v.1 h1, XR.addF_roundtrip b v.2 h2,
    XR.addF_roundtrip c v.1 h3, XR.addF_roundtrip d v.2 h4⟩

/-- Closed instance of `translated_roundtripF` at float-exact inputs. -/
theorem translated_roundtripF_witness :
    ((⟨XR.fin 1, XR.fin 2, XR.fin 3, XR.fin 4⟩ : AABB).translatedF
        (5, 6)).translatedF (-5, -6)
      = ⟨XR.fin 1, XR.fin 2, XR.fin 3, XR.fin 4⟩ :=
  translated_roundtripF ⟨XR.fin 1, XR.fin 2, XR.fin 3, XR.fin 4⟩ (5, 6)
    (fun q hq => by
      obtain rfl : (1 : ℚ) = q := XR.fin.inj hq
      exact ⟨by decide, by decide⟩)
    (fun q hq => by
      obtain rfl : (2 : ℚ) = q := XR.fin.inj hq
      exact ⟨by decide, by decide⟩)
    (fun q hq => by
      obtain rfl : (3 : ℚ) = q := XR.fin.inj hq
      exact ⟨by decide, by decide⟩)
    (fun q hq => by
      obtain rfl : (4 : ℚ) = q := XR.fin.inj hq
      exact ⟨by decide, by decide⟩)
